import Mathlib

/-!
# Verification of the loro CRDT core against its specification

Shallow embedding of the repository's core data structures and operations:

* the log store (`crates/loro-internal/src/log_store.rs`): per-peer change
  chains, version vector, frontiers, lamport clocks, local append and the
  export/can-merge flag;
* the text container (`crates/loro-core/src/container/text/text_container.rs`):
  local insert/delete, `get_value`, `to_export`, `tracker_checkout`, and the
  event notification they trigger;
* the RLE-tree leaf operations (`crates/rle/src/rle_tree/node/leaf_impl.rs`).

Machine integers are modelled as `Nat`/`Int`; lamport clocks (u32 in the
source) take an explicit `% 2^32` at every arithmetic step.  Components of the
repository whose source files are not under scrutiny (string pool, tracker
internals, version-vector ordering, the delta type) are modelled from the
specification text, and say so in their doc comments.
-/

namespace Loro

/-- Peer identifier (`u64` in the source). -/
abbrev PeerID := Nat

/-- Operation counter (`i32` in the source). -/
abbrev Counter := Int

/-- Lamport clock value (`u32` in the source); stored as a natural number and
reduced `% 2^32` at each arithmetic step. -/
abbrev Lamport := Nat

/-- Timestamps (`i64` in the source). -/
abbrev Timestamp := Int

/-- `2^32`, the modulus of u32 arithmetic. -/
def u32Mod : Nat := 4294967296

/-- `i32::MAX`, used for the tracker's fresh counter offset. -/
def counterMax : Counter := 2147483647

/-- `ID = (peer, counter)` as in `id.rs`. -/
structure ID where
  peer : PeerID
  counter : Counter
deriving DecidableEq, Repr

/-- Frontiers: the IDs without causal successor (a `SmallVec<[ID; 2]>` in the
source). -/
abbrev Frontiers := List ID

/-- `Frontiers::from_id`. -/
def Frontiers.from_id (id : ID) : Frontiers := [id]

/-- Modelled from the spec: "SliceRange is either `[start,end)` into the string
pool or an opaque `Unknown(len)` placeholder for GC'd content"
(`text_content.rs` is not under `src/`). -/
inductive SliceRange where
  | span (start stop : Nat)
  | unknown (len : Nat)
deriving DecidableEq, Repr

/-- `atom_len` of a slice range: `end - start`, or `n` for `Unknown(n)`. -/
def SliceRange.atom_len : SliceRange → Nat
  | .span a b => b - a
  | .unknown n => n

/-- `SliceRange::is_unknown`. -/
def SliceRange.is_unknown : SliceRange → Bool
  | .span _ _ => false
  | .unknown _ => true

/-- Modelled from the spec: mergeability of adjacent slice ranges
("automatically coalescing adjacent compatible items"): two pool ranges merge
when they are contiguous; two unknown ranges always merge. -/
def SliceRange.is_mergable : SliceRange → SliceRange → Bool
  | .span _ b, .span c _ => b == c
  | .unknown _, .unknown _ => true
  | _, _ => false

/-- Modelled from the spec: merging contiguous slice ranges. -/
def SliceRange.merge : SliceRange → SliceRange → SliceRange
  | .span a _, .span _ d => .span a d
  | .unknown n, .unknown m => .unknown (n + m)
  | x, _ => x

/-- Modelled from the spec: `slice(from,to)` of an RLE item. -/
def SliceRange.slice : SliceRange → Nat → Nat → SliceRange
  | .span a _, f, t => .span (a + f) (a + t)
  | .unknown _, f, t => .unknown (t - f)

/-- The internal content of an op (`InnerContent::List` cases; maps are out of
scope for the claims). -/
inductive InnerContent where
  | insert (slice : SliceRange) (pos : Nat)
  | delete (pos : Int) (len : Int)
deriving DecidableEq, Repr

/-- Content length of an op's content: the slice's `atom_len` for inserts, the
absolute deletion length for deletes. -/
def InnerContent.content_len : InnerContent → Nat
  | .insert s _ => s.atom_len
  | .delete _ l => l.natAbs

/-- An operation: its first counter, its container index, and its content. -/
structure Op where
  counter : Counter
  container : Nat
  content : InnerContent
deriving DecidableEq, Repr

/-- `Op::content_len`. -/
def Op.content_len (op : Op) : Nat := op.content.content_len

/-- `ctr_last` (`HasCounterSpan`): the last counter occupied by the op. -/
def Op.ctr_last (op : Op) : Counter := op.counter + op.content_len - 1

/-- `Change` as in `change.rs`: id of the first op, deps, ops, lamport,
timestamp. -/
structure Change where
  id : ID
  deps : Frontiers
  ops : List Op
  lamport : Lamport
  timestamp : Timestamp
deriving DecidableEq, Repr

/-- `Change::content_len`: total atom length of the ops. -/
def Change.content_len (c : Change) : Nat := (c.ops.map Op.content_len).sum

/-- `id_end` (`HasIdSpan`): the first ID after the change. -/
def Change.id_end (c : Change) : ID := ⟨c.id.peer, c.id.counter + c.content_len⟩

/-- `id_last`: the last ID inside the change. -/
def Change.id_last (c : Change) : ID := ⟨c.id.peer, c.id.counter + c.content_len - 1⟩

/-- Modelled from the spec: `Change::can_merge_right` (`change.rs` is not under
`src/`): "ID counters are contiguous, and the prior change's deps equal the new
change's pre-update frontier" — the new change's deps field holds exactly its
pre-update frontier, so the deps condition is deps equality. -/
def Change.can_merge_right (prev next_ : Change) : Bool :=
  prev.id.peer == next_.id.peer
    && decide (next_.id.counter = prev.id.counter + prev.content_len)
    && prev.deps == next_.deps

/-- Modelled from the spec: "VersionVector = mapping peer → next-unused
counter", as a finite association list; an absent peer stands for counter 0. -/
abbrev VersionVector := List (PeerID × Counter)

/-- Componentwise read of a version vector; missing peers read as 0. -/
def VersionVector.get (vv : VersionVector) (p : PeerID) : Counter :=
  ((vv.find? (fun e => e.1 == p)).map (·.2)).getD 0

/-- `VersionVector::set_end`: force the entry of `id.peer` to `id.counter`. -/
def VersionVector.set_end : VersionVector → ID → VersionVector
  | [], id => [(id.peer, id.counter)]
  | e :: rest, id =>
    if e.1 = id.peer then (id.peer, id.counter) :: rest
    else e :: VersionVector.set_end rest id

/-- Modelled from the spec: the version-vector preorder, "compared
componentwise" with missing entries read as 0. -/
def VersionVector.leB (a b : VersionVector) : Bool :=
  (a ++ b).all (fun e => decide (VersionVector.get a e.1 ≤ VersionVector.get b e.1))

/-- Per-peer change chains (`ClientChanges = FxHashMap<PeerID, RleVec<Change>>`),
as an association list. -/
abbrev ClientChanges := List (PeerID × List Change)

/-- The change chain of a peer (empty when absent). -/
def ClientChanges.get_changes (cc : ClientChanges) (p : PeerID) : List Change :=
  ((cc.find? (fun e => e.1 == p)).map (·.2)).getD []

/-- Replace (or create, as `entry(..).or_default()`) the change chain of a
peer. -/
def ClientChanges.set_changes : ClientChanges → PeerID → List Change → ClientChanges
  | [], p, v => [(p, v)]
  | e :: rest, p, v =>
    if e.1 = p then (p, v) :: rest
    else e :: ClientChanges.set_changes rest p v

/-- `LogStore` (`loro-internal/src/log_store.rs`).  The container registry is
reduced to the observer list needed by `should_notify`; the injected clock
(`cfg.get_time`) is modelled by the field `get_time`, the reading the clock
returns during the call. -/
structure LogStore where
  changes : ClientChanges
  vv : VersionVector
  latest_lamport : Lamport
  latest_timestamp : Timestamp
  frontiers : Frontiers
  this_client_id : PeerID
  gc : Bool
  get_time : Timestamp
  subscribed : List Nat
  can_merge_local_op : Bool
deriving DecidableEq, Repr

/-- `LogStore::get_next_counter`: the total atom length of this peer's chain
(0 when absent). -/
def LogStore.get_next_counter (s : LogStore) (p : PeerID) : Counter :=
  ((ClientChanges.get_changes s.changes p).map Change.content_len).sum

/-- `LogStore::next_lamport = latest_lamport + 1` (u32 arithmetic). -/
def LogStore.next_lamport (s : LogStore) : Lamport :=
  (s.latest_lamport + 1) % u32Mod

/-- `LogStore::next_id`. -/
def LogStore.next_id (s : LogStore) : ID :=
  ⟨s.this_client_id, s.get_next_counter s.this_client_id⟩

/-- Modelled from the spec: `Hierarchy::should_notify` ("if any subscriber
exists for this container or any ancestor", `hierarchy.rs` is not under
`src/`): whether the container id has a registered observer. -/
def LogStore.should_notify (s : LogStore) (id : Nat) : Bool :=
  s.subscribed.contains id

/-- The `Change` freshly constructed inside `append_local_ops` (the `let
change = Change { .. }` of `log_store.rs:280-286`). -/
def LogStore.local_change (s : LogStore) (ops : List Op) : Change :=
  { id := ⟨s.this_client_id, s.get_next_counter s.this_client_id⟩
    deps := s.frontiers
    ops := ops
    lamport := s.next_lamport
    timestamp := s.get_time }

/-- The merge test of `append_local_ops` (`log_store.rs:291-301`): the
can-merge flag, and the previous local change's `can_merge_right` against the
fresh change. -/
def LogStore.merge_cond (s : LogStore) (ops : List Op) : Bool :=
  s.can_merge_local_op &&
    (match (ClientChanges.get_changes s.changes s.this_client_id).getLast? with
      | some prev => prev.can_merge_right (s.local_change ops)
      | none => false)

/-- `LogStore::append_local_ops` (`log_store.rs:266-311`).  Empty op slices
return immediately; otherwise the new change is built, lamport/timestamp/vv/
frontiers update, and the change either merges into the previous local change
(when the can-merge flag is set and `can_merge_right` holds) or is pushed as a
new record, which resets the can-merge flag to `true`. -/
def LogStore.append_local_ops (s : LogStore) (ops : List Op) : LogStore :=
  match ops.getLast? with
  | none => s
  | some last =>
    let lamport := s.next_lamport
    let timestamp := s.get_time
    let last_id : ID := ⟨s.this_client_id, last.ctr_last⟩
    let change := s.local_change ops
    let s1 := { s with
      frontiers := Frontiers.from_id last_id
      latest_lamport := (lamport + change.content_len + (u32Mod - 1)) % u32Mod
      latest_timestamp := timestamp
      vv := s.vv.set_end change.id_end }
    let prev_changes := ClientChanges.get_changes s.changes s.this_client_id
    if s.merge_cond ops then
      let prev := prev_changes.getLastD change
      let merged := prev_changes.dropLast ++ [{ prev with ops := prev.ops ++ change.ops }]
      { s1 with changes := ClientChanges.set_changes s.changes s.this_client_id merged }
    else
      let pushed := prev_changes ++ [change]
      { s1 with
        changes := ClientChanges.set_changes s.changes s.this_client_id pushed
        can_merge_local_op := true }

/-- `LogStore::expose_local_change` (`log_store.rs:142-145`): clear the
can-merge flag. -/
def LogStore.expose_local_change (s : LogStore) : LogStore :=
  { s with can_merge_local_op := false }

/-- The state effect of `LogStore::export` (`log_store.rs:124-140`): `export`
first calls `expose_local_change` and otherwise only reads through `&self`;
the wire-format data it returns is a pure read and is not modelled here. -/
def LogStore.export_state (s : LogStore) : LogStore :=
  s.expose_local_change

/-- Modelled from the spec: "Return (old_frontier, new_frontier) for
observers."  The `loro-core` variant of `append_local_ops` called by
`TextContainer::insert` (that crate's `log_store.rs` is not under `src/`)
returns this pair; the `loro-internal` variant embedded above performs the
same state update but returns nothing. -/
def LogStore.append_local_ops_ret (s : LogStore) (ops : List Op) :
    Frontiers × Frontiers :=
  (s.frontiers, (s.append_local_ops ops).frontiers)

/-! ## Log-store lemmas -/

theorem frontiers_after_append (s : LogStore) (ops : List Op) (last : Op)
    (h : ops.getLast? = some last) :
    (s.append_local_ops ops).frontiers = [ID.mk s.this_client_id last.ctr_last] := by
  cases hc : s.merge_cond ops <;>
    simp [LogStore.append_local_ops, h, hc, Frontiers.from_id]

theorem latest_lamport_after_append (s : LogStore) (ops : List Op) (last : Op)
    (h : ops.getLast? = some last) :
    (s.append_local_ops ops).latest_lamport
      = (s.next_lamport + (s.local_change ops).content_len + (u32Mod - 1)) % u32Mod := by
  cases hc : s.merge_cond ops <;>
    simp [LogStore.append_local_ops, h, hc]

theorem lamport_mod_step (x L : Nat) :
    ((x + 1) % u32Mod + L + (u32Mod - 1)) % u32Mod = (x + L) % u32Mod := by
  have h1 : ((x + 1) % u32Mod + L + (u32Mod - 1)) % u32Mod
      = ((x + 1) + (L + (u32Mod - 1))) % u32Mod := by
    rw [Nat.add_assoc, Nat.mod_add_mod]
  have hM : 1 ≤ u32Mod := by norm_num [u32Mod]
  have h2 : (x + 1) + (L + (u32Mod - 1)) = (x + L) + u32Mod := by omega
  rw [h1, h2, Nat.add_mod_right]

theorem get_set_changes (cc : ClientChanges) (p : PeerID) (v : List Change) :
    ClientChanges.get_changes (ClientChanges.set_changes cc p v) p = v := by
  induction cc with
  | nil => simp [ClientChanges.set_changes, ClientChanges.get_changes]
  | cons e rest ih =>
    by_cases he : e.1 = p
    · simp [ClientChanges.set_changes, he, ClientChanges.get_changes]
    · have hb : (e.1 == p) = false := by simpa using he
      simpa [ClientChanges.set_changes, he, ClientChanges.get_changes, hb] using ih

theorem merge_cond_iff (s : LogStore) (ops : List Op) :
    s.merge_cond ops = true
      ↔ (s.can_merge_local_op = true ∧
          ∃ prev, (ClientChanges.get_changes s.changes s.this_client_id).getLast? = some prev
            ∧ prev.can_merge_right (s.local_change ops) = true) := by
  unfold LogStore.merge_cond
  rw [Bool.and_eq_true]
  constructor
  · rintro ⟨hc, hm⟩
    refine ⟨hc, ?_⟩
    cases hl : (ClientChanges.get_changes s.changes s.this_client_id).getLast? with
    | none => rw [hl] at hm; exact absurd hm (by simp)
    | some prev => rw [hl] at hm; exact ⟨prev, rfl, hm⟩
  · rintro ⟨hc, prev, hl, hm⟩
    exact ⟨hc, by rw [hl]; exact hm⟩

/-! ## Claim theorems about the log store -/

/-- C10: `append_local_ops` with an empty op slice is a complete no-op — the
version vector, frontiers, latest lamport, latest timestamp and the per-peer
change chains (indeed the whole store) are unchanged. -/
theorem append_local_ops_nil_noop (s : LogStore) :
    s.append_local_ops [] = s ∧
    (s.append_local_ops []).vv = s.vv ∧
    (s.append_local_ops []).frontiers = s.frontiers ∧
    (s.append_local_ops []).latest_lamport = s.latest_lamport ∧
    (s.append_local_ops []).latest_timestamp = s.latest_timestamp ∧
    (s.append_local_ops []).changes = s.changes :=
  ⟨rfl, rfl, rfl, rfl, rfl, rfl⟩

/-- C3: for a non-empty op slice, the `(old_frontier, new_frontier)` pair that
`append_local_ops` reports to observers is the store's frontier before the
call paired with `{last_id of the appended ops}` — which is also exactly the
frontier field after the call; the old frontier is moved into the new change's
`deps`. -/
theorem append_local_ops_ret_spec (s : LogStore) (ops : List Op) (last : Op)
    (h : ops.getLast? = some last) :
    s.append_local_ops_ret ops
      = (s.frontiers, [ID.mk s.this_client_id last.ctr_last]) ∧
    (s.append_local_ops ops).frontiers = [ID.mk s.this_client_id last.ctr_last] ∧
    (s.local_change ops).deps = s.frontiers := by
  have hf := frontiers_after_append s ops last h
  exact ⟨by unfold LogStore.append_local_ops_ret; rw [hf], hf, rfl⟩

theorem append_local_ops_ret_spec_witness :
    let s : LogStore := ⟨[], [], 0, 0, [], 1, true, 0, [], true⟩
    let op : Op := ⟨0, 0, .insert (.span 0 3) 0⟩
    s.append_local_ops_ret [op] = (s.frontiers, [ID.mk s.this_client_id op.ctr_last]) ∧
    (s.append_local_ops [op]).frontiers = [ID.mk s.this_client_id op.ctr_last] ∧
    (s.local_change [op]).deps = s.frontiers :=
  append_local_ops_ret_spec _ _ _ rfl

/-- C5: for a non-empty op slice, the fresh change carries
`lamport = latest_lamport + 1`, afterwards the store's `latest_lamport` is
`lamport + content_len - 1`, and hence each call increases `latest_lamport` by
exactly the content length of the appended ops (all in u32 arithmetic). -/
theorem append_local_ops_lamport_spec (s : LogStore) (ops : List Op) (last : Op)
    (h : ops.getLast? = some last) :
    (s.local_change ops).lamport = (s.latest_lamport + 1) % u32Mod ∧
    (s.append_local_ops ops).latest_lamport
      = ((s.local_change ops).lamport + (s.local_change ops).content_len + (u32Mod - 1)) % u32Mod ∧
    (s.append_local_ops ops).latest_lamport
      = (s.latest_lamport + (s.local_change ops).content_len) % u32Mod := by
  refine ⟨rfl, latest_lamport_after_append s ops last h, ?_⟩
  rw [latest_lamport_after_append s ops last h]
  exact lamport_mod_step s.latest_lamport (s.local_change ops).content_len

theorem append_local_ops_lamport_spec_witness :
    let s : LogStore := ⟨[], [], 41, 0, [], 1, true, 0, [], true⟩
    let op : Op := ⟨0, 0, .insert (.span 0 3) 0⟩
    (s.local_change [op]).lamport = (s.latest_lamport + 1) % u32Mod ∧
    (s.append_local_ops [op]).latest_lamport
      = ((s.local_change [op]).lamport + (s.local_change [op]).content_len + (u32Mod - 1)) % u32Mod ∧
    (s.append_local_ops [op]).latest_lamport
      = (s.latest_lamport + (s.local_change [op]).content_len) % u32Mod :=
  append_local_ops_lamport_spec _ _ _ rfl

/-- C4: for a non-empty op slice, the fresh change merges into the previous
local change (no new record appears in this peer's chain) if and only if the
can-merge flag is set and the previous change can merge right with it;
`export` (through `expose_local_change`) clears the flag, so the first local
append after an export always pushes a new record; and pushing a new record
resets the flag to `true` (it also stays `true` after a merge). -/
theorem append_local_ops_merge_iff (s : LogStore) (ops : List Op) (last : Op)
    (h : ops.getLast? = some last) :
    ((ClientChanges.get_changes (s.append_local_ops ops).changes s.this_client_id).length
        = (ClientChanges.get_changes s.changes s.this_client_id).length
      ↔ (s.can_merge_local_op = true ∧
          ∃ prev, (ClientChanges.get_changes s.changes s.this_client_id).getLast? = some prev
            ∧ prev.can_merge_right (s.local_change ops) = true)) ∧
    s.expose_local_change.can_merge_local_op = false ∧
    (ClientChanges.get_changes (s.expose_local_change.append_local_ops ops).changes
        s.this_client_id).length
      = (ClientChanges.get_changes s.changes s.this_client_id).length + 1 ∧
    (s.append_local_ops ops).can_merge_local_op = true := by
  refine ⟨?_, rfl, ?_, ?_⟩
  · rw [← merge_cond_iff s ops]
    cases hc : s.merge_cond ops
    · simp only [LogStore.append_local_ops, h, hc]
      simp [get_set_changes]
    · simp only [LogStore.append_local_ops, h, hc]
      simp only [if_true, get_set_changes, Bool.true_eq, iff_true]
      rcases (merge_cond_iff s ops).mp hc with ⟨-, prev, hl, -⟩
      have hne : ClientChanges.get_changes s.changes s.this_client_id ≠ [] := by
        intro hnil; rw [hnil] at hl; exact absurd hl (by simp)
      have hlen : 1 ≤ (ClientChanges.get_changes s.changes s.this_client_id).length :=
        List.length_pos.mpr hne
      simp [List.length_dropLast]
      omega
  · have hc : s.expose_local_change.merge_cond ops = false := by
      simp [LogStore.merge_cond, LogStore.expose_local_change]
    simp only [LogStore.append_local_ops, h, hc]
    simp [get_set_changes, LogStore.expose_local_change]
  · cases hc : s.merge_cond ops
    · simp [LogStore.append_local_ops, h, hc]
    · simp only [LogStore.append_local_ops, h, hc, if_true]
      have := (merge_cond_iff s ops).mp hc
      simpa using this.1

theorem append_local_ops_merge_iff_witness :
    let s : LogStore := ⟨[], [], 0, 0, [], 1, true, 0, [], true⟩
    let op : Op := ⟨0, 0, .insert (.span 0 3) 0⟩
    ((ClientChanges.get_changes (s.append_local_ops [op]).changes s.this_client_id).length
        = (ClientChanges.get_changes s.changes s.this_client_id).length
      ↔ (s.can_merge_local_op = true ∧
          ∃ prev, (ClientChanges.get_changes s.changes s.this_client_id).getLast? = some prev
            ∧ prev.can_merge_right (s.local_change [op]) = true)) ∧
    s.expose_local_change.can_merge_local_op = false ∧
    (ClientChanges.get_changes (s.expose_local_change.append_local_ops [op]).changes
        s.this_client_id).length
      = (ClientChanges.get_changes s.changes s.this_client_id).length + 1 ∧
    (s.append_local_ops [op]).can_merge_local_op = true :=
  append_local_ops_merge_iff _ _ _ rfl

/-! ## String pool

Modelled from the spec (`string_pool.rs` is not under `src/`): an append-only
character arena plus a liveness bitmap for GC.  Strings are `List Char`. -/

/-- Modelled from the spec: "a byte vector plus an optional run-length
alive/dead map". `alive` records per-position liveness. -/
structure StringPool where
  data : List Char
  alive : List Bool
deriving DecidableEq, Repr

/-- Modelled from the spec: "`alloc(s)` returns a fresh range" with
"`end = len_before + s.len()`"; bytes are never mutated or freed. -/
def StringPool.alloc (p : StringPool) (s : List Char) : (Nat × Nat) × StringPool :=
  ((p.data.length, p.data.length + s.length), { p with data := p.data ++ s })

/-- `StringPool::get_str(range)`: the characters in `[start, end)`. -/
def StringPool.get_str (p : StringPool) (r : Nat × Nat) : List Char :=
  (p.data.drop r.1).take (r.2 - r.1)

/-- Modelled from the spec: GC triggers "when total length exceeds 2× live
length". -/
def StringPool.should_update_aliveness (p : StringPool) (current_len : Nat) : Bool :=
  decide (current_len * 2 < p.data.length)

/-- Modelled from the spec: "recompute aliveness by iterating the current tree
and marking ranges live" — position `i` is alive iff some live range covers
it. -/
def StringPool.update_aliveness (p : StringPool) (ranges : List (Nat × Nat)) : StringPool :=
  let live := fun i => ranges.any (fun r => decide (r.1 ≤ i) && decide (i < r.2))
  { p with alive := (List.range p.data.length).map live }

/-- `Alive` spans of the pool (`Alive::True(n)` / `Alive::False(n)` in the
source). -/
inductive Alive where
  | alive (n : Nat)
  | dead (n : Nat)
deriving DecidableEq, Repr

/-- Length of an aliveness span. -/
def Alive.atom_len : Alive → Nat
  | .alive n => n
  | .dead n => n

/-- Extend a run-length grouping by one position of liveness `b` on the
left: grow the leading span when it has the same liveness, else start a new
span of length 1. -/
def alivePush (b : Bool) : List Alive → List Alive
  | .alive n :: tl => if b then .alive (n + 1) :: tl else .dead 1 :: .alive n :: tl
  | .dead n :: tl => if b then .alive 1 :: .dead n :: tl else .dead (n + 1) :: tl
  | [] => if b then [.alive 1] else [.dead 1]

/-- Run-length grouping of a boolean liveness sequence into `Alive` spans. -/
def aliveRuns : List Bool → List Alive
  | [] => []
  | b :: rest => alivePush b (aliveRuns rest)

/-- Modelled from the spec: "`get_aliveness(range)` [splits] a range into
alternating `Alive::True(n)` / `Alive::False(n)` spans during export". -/
def StringPool.get_aliveness (p : StringPool) (r : Nat × Nat) : List Alive :=
  aliveRuns ((p.alive.drop r.1).take (r.2 - r.1))

/-! ## Tracker

Modelled from the spec (`tracker.rs` is not under `src/`): only the version
bounds and the construction parameters that `tracker_checkout` manipulates are
needed by the claims. -/

/-- Modelled from the spec: the tracker's version bounds
(`start_vv ≤ current_vv ≤ all_vv`) and its counter offset, the second argument
of `Tracker::new`. -/
structure Tracker where
  start_vv : VersionVector
  all_vv : VersionVector
  current_vv : VersionVector
  init_counter : Counter
deriving DecidableEq, Repr

/-- Modelled from the spec: "rebuild a fresh tracker starting at `vv` with a
counter offset" — all version bounds start at `vv`. -/
def Tracker.new (vv : VersionVector) (init_counter : Counter) : Tracker :=
  ⟨vv, vv, vv, init_counter⟩

/-- Modelled from the spec: "`checkout(vv)` ... slide `current_vv` to `vv` via
minimal retreat+forward": the version bounds and offset stay, `current_vv`
becomes `vv`. -/
def Tracker.checkout (t : Tracker) (vv : VersionVector) : Tracker :=
  { t with current_vv := vv }

/-! ## Delta / event pipeline

Modelled from the spec (`delta.rs`, `event.rs`, `hierarchy.rs` are not under
`src/`): a `Delta` is an ordered list of retain/insert/delete items; a raw
event carries diffs and the version pair. -/

/-- One element of a `Delta`. -/
inductive DeltaItem where
  | retain (n : Nat)
  | insert (s : List Char)
  | delete (n : Nat)
deriving DecidableEq, Repr

/-- Modelled from the spec: "`Delta` is an Operational-Transform-style ordered
sequence of `retain(n) | insert(content) | delete(n)` operations". -/
abbrev Delta := List DeltaItem

/-- `Delta::new`. -/
def Delta.new : Delta := []

/-- `Delta::retain`: append a retain. -/
def Delta.retain (d : Delta) (n : Nat) : Delta := d ++ [.retain n]

/-- `Delta::insert`: append an insert. -/
def Delta.insert (d : Delta) (s : List Char) : Delta := d ++ [.insert s]

/-- `Delta::delete`: append a delete. -/
def Delta.delete (d : Delta) (n : Nat) : Delta := d ++ [.delete n]

/-- `Diff` (only the `Text` variant is needed by the claims). -/
inductive Diff where
  | text (d : Delta)
deriving DecidableEq, Repr

/-- `RawEvent` as built by `TextContainer::notify_local`. -/
structure RawEvent where
  diff : List Diff
  is_local : Bool
  old_version : Frontiers
  new_version : Frontiers
  container_id : Nat
deriving DecidableEq, Repr

/-- A delivered notification: the event handed to `hierarchy.notify`, together
with the container state visible to the callback at the moment the
notification fires (the callback can read the container back through the
registry, so the state at that instant is part of the observable trace). -/
structure Fired where
  event : RawEvent
  state_at_fire : List SliceRange
  pool_at_fire : StringPool
deriving DecidableEq, Repr

/-! ## The text container's tree state

The container's `state` field is an `RleTree<SliceRange>`.  The tree-level
routing code (`tree.rs`, `internal_impl.rs`, `tree_trait.rs`) is not under
`src/`; following the spec's contract for the tree (§4.A) the state is
modelled as its flattened ordered item sequence, on which positional insert
slices the covering item and eagerly merges the new value with its left, then
right neighbour, and positional delete slices the boundary items and drops the
covered ones. -/

/-- `Σ atom_len(children)`; what `RleTree::len` (the root cache) returns. -/
def textLenOf (items : List SliceRange) : Nat :=
  (items.map SliceRange.atom_len).sum

/-- Modelled from the spec: `RleTree::insert(index, value)` seen on the
flattened item sequence — "if `index` splits an existing item, slice it into
left/right halves; attempt to merge `value` with its new left neighbor, then
with the right neighbor." -/
def stateInsert : List SliceRange → Nat → SliceRange → List SliceRange
  | [], _, v => [v]
  | i :: rest, pos, v =>
    if pos = 0 then
      if v.is_mergable i then v.merge i :: rest else v :: i :: rest
    else if pos < i.atom_len then
      let l := i.slice 0 pos
      let r := i.slice pos i.atom_len
      if l.is_mergable v then
        if (l.merge v).is_mergable r then (l.merge v).merge r :: rest
        else l.merge v :: r :: rest
      else if v.is_mergable r then l :: v.merge r :: rest
      else l :: v :: r :: rest
    else if pos = i.atom_len then
      if i.is_mergable v then i.merge v :: rest
      else i :: stateInsert rest 0 v
    else i :: stateInsert rest (pos - i.atom_len) v

/-- Modelled from the spec: `RleTree::delete_range(from, to)` seen on the
flattened item sequence — "slice the leaves at both endpoints, remove whole
items between them". -/
def stateDelete : List SliceRange → Nat → Nat → List SliceRange
  | [], _, _ => []
  | i :: rest, a, b =>
    if b ≤ a then i :: rest
    else if i.atom_len ≤ a then i :: stateDelete rest (a - i.atom_len) (b - i.atom_len)
    else
      let keepL := if a = 0 then [] else [i.slice 0 a]
      if b < i.atom_len then keepL ++ i.slice b i.atom_len :: rest
      else keepL ++ stateDelete rest 0 (b - i.atom_len)

/-- `TextContainer` (`text_container.rs:34-40`); the container id is the
opaque registry index. -/
structure TextContainer where
  id : Nat
  state : List SliceRange
  raw_str : StringPool
  tracker : Tracker
deriving DecidableEq, Repr

/-- `TextContainer::text_len`. -/
def TextContainer.text_len (c : TextContainer) : Nat :=
  textLenOf c.state

/-- The string a state item denotes: `get_str` of its pool range (never
consulted on `Unknown` items, which `get_value` rejects first). -/
def strOf (p : StringPool) : SliceRange → List Char
  | .span a b => p.get_str (a, b)
  | .unknown _ => []

/-- The concatenation of `get_str` over the state items in iteration order. -/
def valueOf (p : StringPool) : List SliceRange → List Char
  | [] => []
  | i :: rest => strOf p i ++ valueOf p rest

/-- The loop of `TextContainer::get_value` (`text_container.rs:178-190`):
walk the tree items; panic on an `Unknown` range, otherwise push `get_str` of
the range. -/
def getValueGo (p : StringPool) : List SliceRange → Except String (List Char)
  | [] => .ok []
  | i :: rest =>
    match i with
    | .span a b => (getValueGo p rest).map (fun tl => p.get_str (a, b) ++ tl)
    | .unknown _ => .error "Unknown range when getting value"

/-- `TextContainer::get_value`; the `panic!` is a `.error` result. -/
def TextContainer.get_value (c : TextContainer) : Except String (List Char) :=
  getValueGo c.raw_str c.state

/-- `TextContainer::insert` (`text_container.rs:52-90`).  Empty text returns
`None`; an out-of-range position panics (`.error`) before any mutation;
otherwise the pool allocates, the tree inserts at `pos`, the op is appended to
the log, and — if observers are registered — one `Diff::Text` delta
`retain(pos); insert(text)` fires, with the container already holding the new
state (the tree insert textually precedes the notify call). -/
def TextContainer.insert (c : TextContainer) (store : LogStore) (pos : Nat)
    (text : List Char) :
    Except String (Option ID × TextContainer × LogStore × List Fired) :=
  if text.isEmpty then .ok (none, c, store, [])
  else if c.text_len < pos then .error "insert index out of range"
  else
    let id := store.next_id
    let ap := c.raw_str.alloc text
    let slice : SliceRange := .span ap.1.1 ap.1.2
    let state1 := stateInsert c.state pos slice
    let op : Op := ⟨id.counter, c.id, .insert slice pos⟩
    let old_version := store.frontiers
    let store1 := store.append_local_ops [op]
    let new_version := store1.frontiers
    let c1 : TextContainer := { c with raw_str := ap.2, state := state1 }
    if store1.should_notify c.id then
      let delta := (Delta.new.retain pos).insert text
      let ev : RawEvent := ⟨[Diff.text delta], true, old_version, new_version, c.id⟩
      .ok (some id, c1, store1, [⟨ev, c1.state, c1.raw_str⟩])
    else .ok (some id, c1, store1, [])

/-- `TextContainer::delete` (`text_container.rs:92-127`).  Zero length returns
`None`; an out-of-range span panics (`.error`) before any mutation; otherwise
the op is appended, the notification (if any) fires — before the tree
mutation, as in the source, so the fired record carries the pre-delete state —
and then the tree range is deleted. -/
def TextContainer.delete (c : TextContainer) (store : LogStore) (pos len : Nat) :
    Except String (Option ID × TextContainer × LogStore × List Fired) :=
  if len = 0 then .ok (none, c, store, [])
  else if c.text_len < pos + len then .error "deletion out of range"
  else
    let id := store.next_id
    let op : Op := ⟨id.counter, c.id, .delete pos len⟩
    let old_version := store.frontiers
    let store1 := store.append_local_ops [op]
    let new_version := store1.frontiers
    let fired :=
      if store1.should_notify c.id then
        let delta := (Delta.new.retain pos).delete len
        let ev : RawEvent := ⟨[Diff.text delta], true, old_version, new_version, c.id⟩
        [(⟨ev, c.state, c.raw_str⟩ : Fired)]
      else []
    let c1 : TextContainer := { c with state := stateDelete c.state pos (pos + len) }
    .ok (some id, c1, store1, fired)

/-- `TextContainer::tracker_checkout` (`text_container.rs:330-342`): reuse and
slide the tracker when `(!vv.is_empty() || start_vv.is_empty())` and
`start_vv ≤ vv ≤ all_vv`; otherwise rebuild it at `vv` with counter offset
`Counter::MAX / 2`. -/
def TextContainer.tracker_checkout (c : TextContainer) (vv : VersionVector) :
    TextContainer :=
  if (!vv.isEmpty || c.tracker.start_vv.isEmpty)
      && VersionVector.leB vv c.tracker.all_vv
      && VersionVector.leB c.tracker.start_vv vv then
    { c with tracker := c.tracker.checkout vv }
  else
    { c with tracker := Tracker.new vv (counterMax / 2) }

/-- Wire-format list slices (`ListSlice::RawStr` / `ListSlice::Unknown`). -/
inductive ListSliceW where
  | rawStr (s : List Char)
  | unknownW (n : Nat)
deriving DecidableEq, Repr

/-- Wire-format op content (`RemoteContent::List` cases). -/
inductive RemoteContent where
  | insert (slice : ListSliceW) (pos : Nat)
  | deleteW (pos len : Int)
deriving DecidableEq, Repr

/-- The export loop of `TextContainer::to_export` (`text_container.rs:212-233`):
one wire op per aliveness span — `RawStr` of `s[start..start+n]` for alive
spans, `Unknown(n)` for dead ones — with `start` and `pos_start` advancing by
each span's length. -/
def exportSpans (s : List Char) : Nat → Nat → List Alive → List RemoteContent
  | _, _, [] => []
  | start, pstart, .alive n :: rest =>
    .insert (.rawStr ((s.drop start).take n)) pstart :: exportSpans s (start + n) (pstart + n) rest
  | start, pstart, .dead n :: rest =>
    .insert (.unknownW n) pstart :: exportSpans s (start + n) (pstart + n) rest

/-- The pool ranges held by the tree state (`self.state.iter().map(|x|
x.as_ref().0.clone())`), used to recompute aliveness. -/
def stateRanges (items : List SliceRange) : List (Nat × Nat) :=
  items.filterMap (fun i => match i with
    | .span a b => some (a, b)
    | .unknown _ => none)

/-- The aliveness refresh at the top of `to_export` (`text_container.rs:
193-196`): with gc on and a stale liveness map, recompute it from the live
tree ranges. -/
def exportUpdated (c : TextContainer) (gc : Bool) : TextContainer :=
  if gc && c.raw_str.should_update_aliveness c.text_len then
    { c with raw_str := c.raw_str.update_aliveness (stateRanges c.state) }
  else c

/-- `TextContainer::to_export` (`text_container.rs:192-250`) for list-insert
and list-delete contents; returns the emitted wire ops and the container
(whose pool aliveness may have been recomputed first). -/
def TextContainer.to_export (c : TextContainer) (content : InnerContent) (gc : Bool) :
    List RemoteContent × TextContainer :=
  let c := exportUpdated c gc
  match content with
  | .insert slice pos =>
    match slice with
    | .unknown n => ([.insert (.unknownW n) pos], c)
    | .span a b =>
      let s := c.raw_str.get_str (a, b)
      if gc then (exportSpans s 0 pos (c.raw_str.get_aliveness (a, b)), c)
      else ([.insert (.rawStr s) pos], c)
  | .delete pos len => ([.deleteW pos len], c)

/-! ## Well-formedness of pool-backed states -/

/-- A state item is well formed for a pool when it is a genuine (non-unknown)
range that lies inside the pool. -/
def itemOk (p : StringPool) : SliceRange → Bool
  | .span a b => decide (a ≤ b) && decide (b ≤ p.data.length)
  | .unknown _ => false

theorem itemOk_not_unknown (p : StringPool) (i : SliceRange) (h : itemOk p i = true) :
    i.is_unknown = false := by
  cases i with
  | span a b => rfl
  | unknown n => exact absurd h (by simp [itemOk])

/-! ## List slicing lemmas -/

theorem sliceStable (d t : List Char) (a b : Nat) (ha : a ≤ b) (hb : b ≤ d.length) :
    ((d ++ t).drop a).take (b - a) = (d.drop a).take (b - a) := by
  rw [List.drop_append_eq_append_drop, List.take_append_eq_append_take]
  have h0 : a - d.length = 0 := by omega
  have h1 : b - a - (d.drop a).length = 0 := by
    rw [List.length_drop]; omega
  rw [h0, h1]
  simp

theorem sliceSplit (d : List Char) (a m b : Nat) (h1 : a ≤ m) (h2 : m ≤ b) :
    (d.drop a).take (b - a) = (d.drop a).take (m - a) ++ (d.drop m).take (b - m) := by
  have hsum : b - a = (m - a) + (b - m) := by omega
  rw [hsum, List.take_add, List.drop_drop]
  have h3 : a + (m - a) = m := by omega
  rw [h3]

theorem sliceNew (d t : List Char) :
    ((d ++ t).drop d.length).take (d.length + t.length - d.length) = t := by
  have h1 : d.length + t.length - d.length = t.length := by omega
  rw [h1, List.drop_left, List.take_length]

theorem strOf_stable (p : StringPool) (t : List Char) (al : List Bool) (i : SliceRange)
    (h : itemOk p i = true) :
    strOf ⟨p.data ++ t, al⟩ i = strOf p i := by
  cases i with
  | span a b =>
    simp only [itemOk, Bool.and_eq_true, decide_eq_true_eq] at h
    exact sliceStable p.data t a b h.1 h.2
  | unknown n => rfl

theorem strOf_length (p : StringPool) (i : SliceRange) (h : itemOk p i = true) :
    (strOf p i).length = i.atom_len := by
  cases i with
  | span a b =>
    simp only [itemOk, Bool.and_eq_true, decide_eq_true_eq] at h
    simp only [strOf, StringPool.get_str, SliceRange.atom_len, List.length_take,
      List.length_drop]
    omega
  | unknown n => exact absurd h (by simp [itemOk])

theorem valueOf_stable (p : StringPool) (t : List Char) (al : List Bool)
    (items : List SliceRange) (h : ∀ i ∈ items, itemOk p i = true) :
    valueOf ⟨p.data ++ t, al⟩ items = valueOf p items := by
  induction items with
  | nil => rfl
  | cons i rest ih =>
    simp only [valueOf]
    rw [strOf_stable p t al i (h i (List.mem_cons_self i rest)),
      ih (fun j hj => h j (List.mem_cons_of_mem _ hj))]

/-! ## `get_value` (C7) -/

theorem getValueGo_ok (p : StringPool) (items : List SliceRange)
    (h : ∀ i ∈ items, i.is_unknown = false) :
    getValueGo p items = .ok (valueOf p items) := by
  induction items with
  | nil => rfl
  | cons i rest ih =>
    cases i with
    | span a b =>
      have hr := ih (fun j hj => h j (List.mem_cons_of_mem _ hj))
      simp [getValueGo, hr, valueOf, strOf, Except.map]
    | unknown n =>
      exact absurd (h _ (List.mem_cons_self _ _)) (by simp [SliceRange.is_unknown])

theorem getValueGo_error_iff (p : StringPool) (items : List SliceRange) :
    (∃ e, getValueGo p items = .error e) ↔ ∃ i ∈ items, i.is_unknown = true := by
  induction items with
  | nil => simp [getValueGo]
  | cons i rest ih =>
    cases i with
    | span a b =>
      simp only [getValueGo, List.mem_cons]
      constructor
      · rintro ⟨e, he⟩
        cases hr : getValueGo p rest with
        | ok v => rw [hr] at he; exact absurd he (by simp [Except.map])
        | error e2 =>
          rcases ih.mp ⟨e2, hr⟩ with ⟨j, hj, hju⟩
          exact ⟨j, Or.inr hj, hju⟩
      · rintro ⟨j, hj, hju⟩
        rcases hj with hj | hj
        · rw [hj] at hju; exact absurd hju (by simp [SliceRange.is_unknown])
        · rcases ih.mpr ⟨j, hj, hju⟩ with ⟨e, he⟩
          exact ⟨e, by rw [he]; rfl⟩
    | unknown n =>
      constructor
      · intro _
        exact ⟨.unknown n, List.mem_cons_self _ _, rfl⟩
      · intro _
        exact ⟨"Unknown range when getting value", rfl⟩

/-- C7: `get_value` fails loudly iff some state item is an `Unknown` slice
range; when no item is `Unknown` it returns the concatenation of `get_str`
over the state's slice ranges in iteration order. -/
theorem get_value_spec (c : TextContainer) :
    ((∃ e, c.get_value = .error e) ↔ ∃ i ∈ c.state, i.is_unknown = true) ∧
    ((∀ i ∈ c.state, i.is_unknown = false) →
      c.get_value = .ok (valueOf c.raw_str c.state)) :=
  ⟨getValueGo_error_iff c.raw_str c.state, getValueGo_ok c.raw_str c.state⟩

theorem get_value_spec_witness :
    (TextContainer.get_value ⟨7, [.span 0 2], ⟨['a', 'b'], []⟩, Tracker.new [] 0⟩)
      = .ok (valueOf ⟨['a', 'b'], []⟩ [.span 0 2]) :=
  (get_value_spec ⟨7, [.span 0 2], ⟨['a', 'b'], []⟩, Tracker.new [] 0⟩).2 (by decide)

/-! ## Out-of-range rejection (C2) -/

/-- C2 (amended): for non-empty text, `insert` with `pos > text_len` fails
before any mutation; for positive `len`, `delete` with `pos + len > text_len`
fails before any mutation.  (The failing call returns only the panic message —
no updated state escapes.) -/
theorem out_of_range_rejected (c : TextContainer) (store : LogStore)
    (pos len : Nat) (text : List Char) (ht : text ≠ []) (hp : c.text_len < pos)
    (hl : 1 ≤ len) (hd : c.text_len < pos + len) :
    c.insert store pos text = .error "insert index out of range" ∧
    c.delete store pos len = .error "deletion out of range" := by
  constructor
  · have hemp : text.isEmpty = false := by simpa using ht
    simp [TextContainer.insert, hemp, hp]
  · have hl0 : ¬ len = 0 := by omega
    simp [TextContainer.delete, hl0, hd]

theorem out_of_range_rejected_witness :
    TextContainer.insert ⟨7, [], ⟨[], []⟩, Tracker.new [] 0⟩
        ⟨[], [], 0, 0, [], 1, true, 0, [], true⟩ 1 ['x']
      = .error "insert index out of range" ∧
    TextContainer.delete ⟨7, [], ⟨[], []⟩, Tracker.new [] 0⟩
        ⟨[], [], 0, 0, [], 1, true, 0, [], true⟩ 1 1
      = .error "deletion out of range" :=
  out_of_range_rejected _ _ 1 1 ['x'] (by decide) (by decide) (by decide) (by decide)

/-! ## Inserting into the tree state splices the value (towards C1) -/

theorem textLenOf_cons (i : SliceRange) (rest : List SliceRange) :
    textLenOf (i :: rest) = i.atom_len + textLenOf rest := by
  simp [textLenOf]

theorem itemOk_stable (p : StringPool) (t : List Char) (al : List Bool)
    (i : SliceRange) (h : itemOk p i = true) :
    itemOk ⟨p.data ++ t, al⟩ i = true := by
  cases i with
  | span a b =>
    simp only [itemOk, Bool.and_eq_true, decide_eq_true_eq] at h ⊢
    constructor
    · exact h.1
    · simp only [List.length_append]
      omega
  | unknown n => exact absurd h (by simp [itemOk])

theorem strOf_take (p : StringPool) (a b k : Nat) :
    (strOf p (.span a b)).take k = strOf p (.span a (a + min k (b - a))) := by
  simp only [strOf, StringPool.get_str, List.take_take]
  congr 1
  omega

theorem strOf_drop (p : StringPool) (a b k : Nat) :
    (strOf p (.span a b)).drop k = strOf p (.span (a + k) b) := by
  simp only [strOf, StringPool.get_str, List.drop_take, List.drop_drop]
  congr 1
  omega

theorem strOf_new (p : StringPool) (t : List Char) (al : List Bool) :
    strOf ⟨p.data ++ t, al⟩ (.span p.data.length (p.data.length + t.length)) = t := by
  simp only [strOf, StringPool.get_str]
  exact sliceNew p.data t

theorem strOf_merged (p : StringPool) (t : List Char) (al : List Bool) (a : Nat)
    (ha : a ≤ p.data.length) :
    strOf ⟨p.data ++ t, al⟩ (.span a (p.data.length + t.length))
      = strOf p (.span a p.data.length) ++ t := by
  have hsplit := sliceSplit (p.data ++ t) a p.data.length (p.data.length + t.length)
    ha (Nat.le_add_right _ _)
  simp only [strOf, StringPool.get_str] at hsplit ⊢
  rw [hsplit, sliceNew p.data t]
  have hstable := strOf_stable p t al (.span a p.data.length)
    (by simp [itemOk, ha])
  simp only [strOf, StringPool.get_str] at hstable
  rw [hstable]

theorem stateInsert_spec (p : StringPool) (t : List Char) (ht : t ≠ []) :
    ∀ (items : List SliceRange) (pos : Nat),
      (∀ i ∈ items, itemOk p i = true) → pos ≤ textLenOf items →
      (∀ j ∈ stateInsert items pos
            (SliceRange.span p.data.length (p.data.length + t.length)),
          itemOk (p.alloc t).2 j = true) ∧
      valueOf (p.alloc t).2
          (stateInsert items pos (SliceRange.span p.data.length (p.data.length + t.length)))
        = (valueOf p items).take pos ++ t ++ (valueOf p items).drop pos := by
  have htl : 1 ≤ t.length := List.length_pos.mpr ht
  intro items
  induction items with
  | nil =>
    intro pos hwf hpos
    have hpos0 : pos = 0 := by simpa [textLenOf] using hpos
    subst hpos0
    constructor
    · intro j hj
      simp only [stateInsert, List.mem_singleton] at hj
      subst hj
      simp [itemOk, StringPool.alloc]
    · show strOf ⟨p.data ++ t, p.alive⟩ _ ++ valueOf _ [] = _
      rw [strOf_new p t p.alive]
      simp [valueOf]
  | cons i rest ih =>
    intro pos hwf hpos
    have hiOk := hwf i (List.mem_cons_self i rest)
    have hwfr : ∀ j ∈ rest, itemOk p j = true :=
      fun j hj => hwf j (List.mem_cons_of_mem _ hj)
    cases i with
    | unknown n => exact absurd hiOk (by simp [itemOk])
    | span a b =>
    simp only [itemOk, Bool.and_eq_true, decide_eq_true_eq] at hiOk
    obtain ⟨hab, hbl⟩ := hiOk
    have hsi : (strOf p (.span a b)).length = b - a := by
      have := strOf_length p (.span a b) (by simp [itemOk, hab, hbl])
      simpa [SliceRange.atom_len] using this
    have hval : valueOf p (SliceRange.span a b :: rest)
        = strOf p (.span a b) ++ valueOf p rest := rfl
    by_cases hp0 : pos = 0
    · -- insertion at the very front: the new slice cannot merge left of anything,
      -- and cannot merge with the right neighbour because the pool range is fresh
      subst hp0
      have hm : (SliceRange.span p.data.length (p.data.length + t.length)).is_mergable
          (.span a b) = false := by
        simp only [SliceRange.is_mergable, beq_eq_false_iff_ne]
        omega
      simp only [stateInsert, if_pos rfl, hm, Bool.false_eq_true, if_false]
      constructor
      · intro j hj
        rcases List.mem_cons.mp hj with hj | hj
        · subst hj; simp [itemOk, StringPool.alloc]
        · exact itemOk_stable p t p.alive j (hwf j hj)
      · show strOf ⟨p.data ++ t, p.alive⟩ _ ++ valueOf ⟨p.data ++ t, p.alive⟩ _ = _
        rw [strOf_new p t p.alive,
          valueOf_stable p t p.alive (SliceRange.span a b :: rest) hwf]
        simp [valueOf]
    · by_cases hpm : pos < (SliceRange.span a b).atom_len
      · -- the position splits the covering item
        simp only [SliceRange.atom_len] at hpm
        have hl_ok : itemOk p (.span a (a + pos)) = true := by
          simp only [itemOk, Bool.and_eq_true, decide_eq_true_eq]
          omega
        have hr_ok : itemOk p (.span (a + pos) b) = true := by
          simp only [itemOk, Bool.and_eq_true, decide_eq_true_eq]
          omega
        have hvr : (SliceRange.span p.data.length (p.data.length + t.length)).is_mergable
            (.span (a + pos) (a + (b - a))) = false := by
          simp only [SliceRange.is_mergable, beq_eq_false_iff_ne]
          omega
        have htake : (strOf p (.span a b) ++ valueOf p rest).take pos
            = strOf p (.span a (a + pos)) := by
          rw [List.take_append_eq_append_take, strOf_take]
          have h1 : min pos (b - a) = pos := by omega
          have h2 : pos - (strOf p (.span a b)).length = 0 := by omega
          rw [h1, h2]
          simp
        have hdrop : (strOf p (.span a b) ++ valueOf p rest).drop pos
            = strOf p (.span (a + pos) b) ++ valueOf p rest := by
          rw [List.drop_append_eq_append_drop, strOf_drop]
          have h2 : pos - (strOf p (.span a b)).length = 0 := by omega
          rw [h2]
          simp
        simp only [stateInsert, if_neg hp0, SliceRange.atom_len, if_pos hpm]
        by_cases hlv : ((SliceRange.span a b).slice 0 pos).is_mergable
            (SliceRange.span p.data.length (p.data.length + t.length)) = true
        · -- the left half is contiguous with the fresh slice: they merge,
          -- and the merged slice cannot merge further with the right half
          have halp : a + pos = p.data.length := by
            simpa [SliceRange.slice, SliceRange.is_mergable] using hlv
          have hmm : (((SliceRange.span a b).slice 0 pos).merge
                (.span p.data.length (p.data.length + t.length))).is_mergable
              ((SliceRange.span a b).slice pos (b - a)) = false := by
            simp only [SliceRange.slice, SliceRange.merge, SliceRange.is_mergable,
              beq_eq_false_iff_ne]
            omega
          rw [if_pos hlv]
          simp only [hmm, Bool.false_eq_true, if_false]
          constructor
          · intro j hj
            rcases List.mem_cons.mp hj with hj | hj
            · subst hj
              simp only [SliceRange.slice, SliceRange.merge, itemOk,
                Bool.and_eq_true, decide_eq_true_eq, StringPool.alloc,
                List.length_append]
              omega
            · rcases List.mem_cons.mp hj with hj | hj
              · subst hj
                have h3 : a + (b - a) = b := by omega
                apply itemOk_stable
                simpa [SliceRange.slice, h3] using hr_ok
              · exact itemOk_stable p t p.alive j (hwfr j hj)
          · show valueOf (⟨p.data ++ t, p.alive⟩ : StringPool) _ = _
            simp only [SliceRange.slice, SliceRange.merge, valueOf, Nat.add_zero]
            rw [htake, hdrop]
            have hmgd := strOf_merged p t p.alive a (by omega)
            rw [hmgd, ← halp]
            have hstr : strOf (⟨p.data ++ t, p.alive⟩ : StringPool)
                (.span (a + pos) (a + (b - a)))
                = strOf p (.span (a + pos) b) := by
              have h3 : a + (b - a) = b := by omega
              rw [h3]
              exact strOf_stable p t p.alive _ hr_ok
            rw [hstr, valueOf_stable p t p.alive rest hwfr]
          -- end of merge-left case
        · rw [if_neg hlv]
          simp only [SliceRange.slice, Nat.add_zero, hvr, Bool.false_eq_true, if_false]
          constructor
          · intro j hj
            rcases List.mem_cons.mp hj with hj | hj
            · subst hj; exact itemOk_stable p t p.alive _ hl_ok
            · rcases List.mem_cons.mp hj with hj | hj
              · subst hj; simp [itemOk, StringPool.alloc]
              · rcases List.mem_cons.mp hj with hj | hj
                · subst hj
                  apply itemOk_stable
                  have h3 : a + (b - a) = b := by omega
                  rw [h3]
                  exact hr_ok
                · exact itemOk_stable p t p.alive j (hwfr j hj)
          · show valueOf (⟨p.data ++ t, p.alive⟩ : StringPool) _ = _
            simp only [valueOf]
            rw [htake, hdrop]
            have h3 : a + (b - a) = b := by omega
            rw [h3, strOf_stable p t p.alive _ hl_ok, strOf_new p t p.alive,
              strOf_stable p t p.alive _ hr_ok,
              valueOf_stable p t p.alive rest hwfr]
            simp [List.append_assoc]
      · -- pos ≥ atom_len: either the clean-cut boundary of `i`, or further right
        have hpm' : ¬ pos < b - a := by simpa [SliceRange.atom_len] using hpm
        by_cases hpe : pos = (SliceRange.span a b).atom_len
        · -- clean cut exactly after `i`
          have hpe' : pos = b - a := by simpa [SliceRange.atom_len] using hpe
          have htake2 : (strOf p (.span a b) ++ valueOf p rest).take pos
              = strOf p (.span a b) := by
            rw [List.take_append_eq_append_take]
            have h2 : pos - (strOf p (.span a b)).length = 0 := by omega
            rw [h2, List.take_of_length_le (by omega)]
            simp
          have hdrop2 : (strOf p (.span a b) ++ valueOf p rest).drop pos
              = valueOf p rest := by
            rw [List.drop_append_eq_append_drop]
            have h2 : pos - (strOf p (.span a b)).length = 0 := by omega
            rw [h2, List.drop_eq_nil_of_le (by omega)]
            simp
          simp only [stateInsert, SliceRange.atom_len, if_neg hp0, if_neg hpm',
            if_pos hpe']
          by_cases hbv : (SliceRange.span a b).is_mergable
              (.span p.data.length (p.data.length + t.length)) = true
          · -- `i` is contiguous with the fresh slice: merge
            have hbL : b = p.data.length := by
              simpa [SliceRange.is_mergable] using hbv
            rw [if_pos hbv]
            constructor
            · intro j hj
              rcases List.mem_cons.mp hj with hj | hj
              · subst hj
                simp only [SliceRange.merge, itemOk, Bool.and_eq_true,
                  decide_eq_true_eq, StringPool.alloc, List.length_append]
                omega
              · exact itemOk_stable p t p.alive j (hwfr j hj)
            · show valueOf (⟨p.data ++ t, p.alive⟩ : StringPool) _ = _
              simp only [SliceRange.merge, valueOf]
              rw [htake2, hdrop2]
              have hmgd := strOf_merged p t p.alive a (by omega)
              rw [hmgd, valueOf_stable p t p.alive rest hwfr, hbL]
          · rw [if_neg hbv]
            obtain ⟨ihwf, ihval⟩ := ih 0 hwfr (Nat.zero_le _)
            constructor
            · intro j hj
              rcases List.mem_cons.mp hj with hj | hj
              · subst hj
                exact itemOk_stable p t p.alive _ (by simp [itemOk, hab, hbl])
              · exact ihwf j hj
            · show strOf (⟨p.data ++ t, p.alive⟩ : StringPool) _ ++ _ = _
              rw [strOf_stable p t p.alive _ (by simp [itemOk, hab, hbl]), ihval,
                hval, htake2, hdrop2]
              simp
        · -- pos strictly beyond `i`: recurse
          have hgt : (SliceRange.span a b).atom_len < pos := by
            rcases Nat.lt_or_ge pos (SliceRange.span a b).atom_len with h | h
            · exact absurd h hpm
            · rcases Nat.eq_or_lt_of_le h with h | h
              · exact absurd h.symm hpe
              · exact h
          simp only [SliceRange.atom_len] at hgt
          have hrec : pos - (b - a) ≤ textLenOf rest := by
            have := hpos
            rw [textLenOf_cons] at this
            simp only [SliceRange.atom_len] at this
            omega
          have hpe2 : ¬ pos = b - a := by simpa [SliceRange.atom_len] using hpe
          obtain ⟨ihwf, ihval⟩ := ih (pos - (b - a)) hwfr hrec
          simp only [stateInsert, SliceRange.atom_len, if_neg hp0, if_neg hpm',
            if_neg hpe2]
          constructor
          · intro j hj
            rcases List.mem_cons.mp hj with hj | hj
            · subst hj
              exact itemOk_stable p t p.alive _ (by simp [itemOk, hab, hbl])
            · exact ihwf j hj
          · show strOf (⟨p.data ++ t, p.alive⟩ : StringPool) _ ++ _ = _
            rw [strOf_stable p t p.alive _ (by simp [itemOk, hab, hbl]), ihval, hval]
            rw [List.take_append_eq_append_take, List.drop_append_eq_append_drop]
            have htk : (strOf p (SliceRange.span a b)).take pos
                = strOf p (SliceRange.span a b) :=
              List.take_of_length_le (by omega)
            have hdp : (strOf p (SliceRange.span a b)).drop pos = [] :=
              List.drop_eq_nil_of_le (by omega)
            rw [htk, hdp, hsi]
            simp [List.append_assoc]

theorem subscribed_after_append (s : LogStore) (ops : List Op) :
    (s.append_local_ops ops).subscribed = s.subscribed := by
  cases h : ops.getLast? with
  | none => simp [LogStore.append_local_ops, h]
  | some last => cases hc : s.merge_cond ops <;> simp [LogStore.append_local_ops, h, hc]

/-- C1: with observers registered, a local `insert(pos, text)` on an in-range
position delivers exactly one event carrying exactly one `Diff::Text` whose
delta is `[retain(pos), insert(text)]`, and at the moment the notification
fires the container's tree state already holds the inserted slice at `pos`:
the value readable by the callback (and the post-call value) is the old value
with `text` spliced in at `pos`. -/
theorem insert_delivers_single_delta (c : TextContainer) (store : LogStore)
    (pos : Nat) (text : List Char)
    (hwf : ∀ i ∈ c.state, itemOk c.raw_str i = true)
    (hpos : pos ≤ c.text_len) (ht : text ≠ [])
    (hn : store.should_notify c.id = true) :
    ∃ id c1 s1 f,
      c.insert store pos text = .ok (some id, c1, s1, [f]) ∧
      f.event.diff = [Diff.text [DeltaItem.retain pos, DeltaItem.insert text]] ∧
      f.state_at_fire = c1.state ∧
      f.pool_at_fire = c1.raw_str ∧
      valueOf f.pool_at_fire f.state_at_fire
        = (valueOf c.raw_str c.state).take pos ++ text
          ++ (valueOf c.raw_str c.state).drop pos ∧
      c1.get_value = .ok ((valueOf c.raw_str c.state).take pos ++ text
          ++ (valueOf c.raw_str c.state).drop pos) := by
  have hemp : text.isEmpty = false := by simpa using ht
  have hlt : ¬ c.text_len < pos := not_lt.mpr hpos
  obtain ⟨hwf1, hval1⟩ := stateInsert_spec c.raw_str text ht c.state pos hwf hpos
  have hn1 : ∀ ops : List Op, (store.append_local_ops ops).should_notify c.id = true := by
    intro ops
    unfold LogStore.should_notify
    rw [subscribed_after_append]
    exact hn
  have heq : c.insert store pos text
      = .ok (some store.next_id,
          { c with
              raw_str := (c.raw_str.alloc text).2
              state := stateInsert c.state pos
                (.span c.raw_str.data.length (c.raw_str.data.length + text.length)) },
          store.append_local_ops [⟨store.next_id.counter, c.id,
            .insert (.span c.raw_str.data.length (c.raw_str.data.length + text.length)) pos⟩],
          [⟨⟨[Diff.text ((Delta.new.retain pos).insert text)], true, store.frontiers,
              (store.append_local_ops [⟨store.next_id.counter, c.id,
                .insert (.span c.raw_str.data.length
                  (c.raw_str.data.length + text.length)) pos⟩]).frontiers, c.id⟩,
            stateInsert c.state pos
              (.span c.raw_str.data.length (c.raw_str.data.length + text.length)),
            (c.raw_str.alloc text).2⟩]) := by
    unfold TextContainer.insert
    simp only [hemp, Bool.false_eq_true, if_false]
    rw [if_neg hlt]
    split
    · rfl
    · rename_i hfalse
      exact absurd (hn1 _) hfalse
  refine ⟨store.next_id, _, _, _, heq, rfl, rfl, rfl, hval1, ?_⟩
  show getValueGo (c.raw_str.alloc text).2 (stateInsert c.state pos _) = _
  rw [getValueGo_ok _ _ (fun i hi => itemOk_not_unknown _ i (hwf1 i hi)), hval1]

theorem insert_delivers_single_delta_witness :
    ∃ id c1 s1 f,
      TextContainer.insert ⟨7, [.span 0 3], ⟨['a', 'b', 'c'], []⟩, Tracker.new [] 0⟩
          ⟨[], [], 0, 0, [], 1, true, 0, [7], true⟩ 3 ['X', 'Y', 'Z']
        = .ok (some id, c1, s1, [f]) ∧
      f.event.diff = [Diff.text [DeltaItem.retain 3, DeltaItem.insert ['X', 'Y', 'Z']]] ∧
      f.state_at_fire = c1.state ∧
      f.pool_at_fire = c1.raw_str ∧
      valueOf f.pool_at_fire f.state_at_fire
        = (valueOf ⟨['a', 'b', 'c'], []⟩ [.span 0 3]).take 3 ++ ['X', 'Y', 'Z']
          ++ (valueOf ⟨['a', 'b', 'c'], []⟩ [.span 0 3]).drop 3 ∧
      c1.get_value = .ok ((valueOf ⟨['a', 'b', 'c'], []⟩ [.span 0 3]).take 3
          ++ ['X', 'Y', 'Z'] ++ (valueOf ⟨['a', 'b', 'c'], []⟩ [.span 0 3]).drop 3) :=
  insert_delivers_single_delta ⟨7, [.span 0 3], ⟨['a', 'b', 'c'], []⟩, Tracker.new [] 0⟩
    ⟨[], [], 0, 0, [], 1, true, 0, [7], true⟩ 3 ['X', 'Y', 'Z']
    (by decide) (by decide) (by decide) (by decide)

/-- C2 (counterexample): with empty text, `insert` at an out-of-range position
does **not** fail — the empty-text check returns `None` first, leaving the
container and store untouched. -/
theorem out_of_range_empty_text_no_failure :
    (TextContainer.text_len ⟨7, [], ⟨[], []⟩, Tracker.new [] 0⟩) < 5 ∧
    TextContainer.insert ⟨7, [], ⟨[], []⟩, Tracker.new [] 0⟩
        ⟨[], [], 0, 0, [], 1, true, 0, [], true⟩ 5 []
      = .ok (none, ⟨7, [], ⟨[], []⟩, Tracker.new [] 0⟩,
          ⟨[], [], 0, 0, [], 1, true, 0, [], true⟩, []) :=
  ⟨by decide, rfl⟩

/-! ## Tracker checkout (C6) -/

/-- C6 (amended): `tracker_checkout` slides the existing tracker to `vv`
(keeping its bounds and counter offset, moving only `current_vv`) if and only
if the guard `(!vv.is_empty() || start_vv.is_empty())` holds **in addition
to** `start_vv ≤ vv ≤ all_vv`; in every other case it discards the tracker
and rebuilds a fresh one whose start version is `vv` and whose counter offset
is `Counter::MAX / 2`. -/
theorem tracker_checkout_spec (c : TextContainer) (vv : VersionVector) :
    (((!vv.isEmpty || c.tracker.start_vv.isEmpty)
        && VersionVector.leB vv c.tracker.all_vv
        && VersionVector.leB c.tracker.start_vv vv) = true →
      c.tracker_checkout vv = { c with tracker := c.tracker.checkout vv }) ∧
    (((!vv.isEmpty || c.tracker.start_vv.isEmpty)
        && VersionVector.leB vv c.tracker.all_vv
        && VersionVector.leB c.tracker.start_vv vv) = false →
      c.tracker_checkout vv = { c with tracker := Tracker.new vv (counterMax / 2) }) := by
  constructor
  · intro h
    simp [TextContainer.tracker_checkout, h]
  · intro h
    simp [TextContainer.tracker_checkout, h]

theorem tracker_checkout_spec_witness :
    TextContainer.tracker_checkout
        ⟨7, [], ⟨[], []⟩, ⟨[(1, 1)], [(1, 3)], [(1, 2)], 0⟩⟩ [(1, 2)]
      = { (⟨7, [], ⟨[], []⟩, ⟨[(1, 1)], [(1, 3)], [(1, 2)], 0⟩⟩ : TextContainer) with
          tracker := Tracker.checkout ⟨[(1, 1)], [(1, 3)], [(1, 2)], 0⟩ [(1, 2)] } :=
  (tracker_checkout_spec ⟨7, [], ⟨[], []⟩, ⟨[(1, 1)], [(1, 3)], [(1, 2)], 0⟩⟩ [(1, 2)]).1
    (by decide)

/-- C6 (counterexample): with `vv` the empty map and a tracker whose
`start_vv` is a non-empty map equivalent to the empty version (a single
zero-counter entry), `start_vv ≤ vv ≤ all_vv` holds yet `tracker_checkout`
rebuilds a fresh tracker instead of sliding — the extra emptiness guard in
the source refutes the claimed if-and-only-if. -/
theorem tracker_checkout_guard_counterexample :
    (VersionVector.leB (Tracker.new [(1, 0)] 0).start_vv [] = true ∧
      VersionVector.leB [] (Tracker.new [(1, 0)] 0).all_vv = true) ∧
    TextContainer.tracker_checkout ⟨7, [], ⟨[], []⟩, Tracker.new [(1, 0)] 0⟩ []
      ≠ { (⟨7, [], ⟨[], []⟩, Tracker.new [(1, 0)] 0⟩ : TextContainer) with
          tracker := Tracker.checkout (Tracker.new [(1, 0)] 0) [] } ∧
    TextContainer.tracker_checkout ⟨7, [], ⟨[], []⟩, Tracker.new [(1, 0)] 0⟩ []
      = { (⟨7, [], ⟨[], []⟩, Tracker.new [(1, 0)] 0⟩ : TextContainer) with
          tracker := Tracker.new [] (counterMax / 2) } :=
  ⟨⟨by decide, by decide⟩, by decide, by decide⟩

/-! ## Export of insert ops (C8) -/

theorem exportSpans_length (s : List Char) (spans : List Alive) :
    ∀ start pstart, (exportSpans s start pstart spans).length = spans.length := by
  induction spans with
  | nil => intro start pstart; rfl
  | cons sp rest ih =>
    intro start pstart
    cases sp <;> simp [exportSpans, ih]

theorem exportSpans_get? (s : List Char) (spans : List Alive) :
    ∀ (start pstart k : Nat),
      (exportSpans s start pstart spans).get? k
        = (spans.get? k).map (fun sp =>
            match sp with
            | .alive n => RemoteContent.insert
                (.rawStr ((s.drop (start + ((spans.take k).map Alive.atom_len).sum)).take n))
                (pstart + ((spans.take k).map Alive.atom_len).sum)
            | .dead n => RemoteContent.insert (.unknownW n)
                (pstart + ((spans.take k).map Alive.atom_len).sum)) := by
  induction spans with
  | nil => intro start pstart k; simp [exportSpans]
  | cons sp rest ih =>
    intro start pstart k
    cases k with
    | zero => cases sp <;> simp [exportSpans, Alive.atom_len]
    | succ k =>
      cases sp with
      | alive n =>
        simp only [exportSpans, List.get?_cons_succ, List.take_succ_cons,
          List.map_cons, List.sum_cons, Alive.atom_len, ih (start + n) (pstart + n) k]
        simp only [Nat.add_assoc]
      | dead n =>
        simp only [exportSpans, List.get?_cons_succ, List.take_succ_cons,
          List.map_cons, List.sum_cons, Alive.atom_len, ih (start + n) (pstart + n) k]
        simp only [Nat.add_assoc]

theorem alivePush_sum (b : Bool) (l : List Alive) :
    ((alivePush b l).map Alive.atom_len).sum = 1 + (l.map Alive.atom_len).sum := by
  match l with
  | .alive n :: tl => cases b <;> (simp [alivePush, Alive.atom_len]; try omega)
  | .dead n :: tl => cases b <;> (simp [alivePush, Alive.atom_len]; try omega)
  | [] => cases b <;> simp [alivePush, Alive.atom_len]

theorem aliveRuns_sum (l : List Bool) :
    ((aliveRuns l).map Alive.atom_len).sum = l.length := by
  induction l with
  | nil => rfl
  | cons b rest ih =>
    simp only [aliveRuns, alivePush_sum, ih, List.length_cons]
    omega

/-- C8: with gc enabled, exporting a (non-unknown) insert op emits exactly one
wire op per aliveness span of its slice — `RawStr` of the corresponding
substring for alive spans, `Unknown(n)` for dead ones, in order — where the
`k`-th op's position is the original `pos` plus the total length of the
preceding spans, and the span lengths sum to the slice's `atom_len`; with gc
disabled it emits exactly one `RawStr` op carrying the whole string at the
original `pos`. -/
theorem to_export_spec (c : TextContainer) (a b pos k : Nat) (hab : a ≤ b)
    (hb : b ≤ (exportUpdated c true).raw_str.alive.length) :
    (c.to_export (.insert (.span a b) pos) true).fst.length
      = ((exportUpdated c true).raw_str.get_aliveness (a, b)).length ∧
    (c.to_export (.insert (.span a b) pos) true).fst.get? k
      = (((exportUpdated c true).raw_str.get_aliveness (a, b)).get? k).map (fun sp =>
          match sp with
          | .alive n => RemoteContent.insert
              (.rawStr ((((exportUpdated c true).raw_str.get_str (a, b)).drop
                (((((exportUpdated c true).raw_str.get_aliveness (a, b)).take k).map
                  Alive.atom_len).sum)).take n))
              (pos + ((((exportUpdated c true).raw_str.get_aliveness (a, b)).take k).map
                  Alive.atom_len).sum)
          | .dead n => RemoteContent.insert (.unknownW n)
              (pos + ((((exportUpdated c true).raw_str.get_aliveness (a, b)).take k).map
                  Alive.atom_len).sum)) ∧
    ((((exportUpdated c true).raw_str.get_aliveness (a, b)).map Alive.atom_len).sum
      = (SliceRange.span a b).atom_len) ∧
    (c.to_export (.insert (.span a b) pos) false).fst
      = [.insert (.rawStr (c.raw_str.get_str (a, b))) pos] := by
  refine ⟨?_, ?_, ?_, ?_⟩
  · show (exportSpans _ 0 pos _).length = _
    exact exportSpans_length _ _ 0 pos
  · show (exportSpans _ 0 pos _).get? k = _
    rw [exportSpans_get?]
    simp
  · show ((aliveRuns (((exportUpdated c true).raw_str.alive.drop a).take (b - a))).map
        Alive.atom_len).sum = _
    rw [aliveRuns_sum]
    simp only [List.length_take, List.length_drop, SliceRange.atom_len]
    omega
  · have hup : exportUpdated c false = c := by simp [exportUpdated]
    simp [TextContainer.to_export, hup]

/-! ## RLE-tree leaf nodes (C9)

The leaf-level operations are embedded from
`crates/rle/src/rle_tree/node/leaf_impl.rs` (`_split`, `_insert_at_pos`,
`_insert_with_split`, `insert`, `delete`, `check`); items are instantiated at
the repository's slice ranges, pairs `[start, stop)` with `atom_len = stop -
start`, contiguity merging and positional slicing.  The tree-level routing
(`tree.rs` / `internal_impl.rs` are not under `src/`) is modelled from the
spec's contract (§4.A) as the ordered list of leaves: `insert` locates the
leaf covering the index through the cached lengths and splices in the split
sibling; `delete_range` slices the boundary leaves and drops leaves that are
emptied ("nodes become unreachable only when emptied").  Notification
closures carry no structural content and are omitted. -/

/-- A run-length item of the text tree: a `[start, stop)` range. -/
abbrev RItem := Nat × Nat

/-- `atom_len` of a range item. -/
def RItem.len (i : RItem) : Nat := i.2 - i.1

/-- `is_mergable`: ranges merge when contiguous. -/
def RItem.mergeableB (i j : RItem) : Bool := i.2 == j.1

/-- `merge` of contiguous ranges. -/
def RItem.mergeR (i j : RItem) : RItem := (i.1, j.2)

/-- `slice(from, to)` of a range item. -/
def RItem.sliceR (i : RItem) (f t : Nat) : RItem := (i.1 + f, i.1 + t)

/-- `MAX_CHILDREN_NUM` for the text tree (`CumulateTreeTrait<SliceRange, 8>`). -/
def maxCh : Nat := 8

/-- `MIN_CHILDREN_NUM` (spec: "typical: MAX=8, MIN=4"). -/
def minCh : Nat := 4

/-- The `Position` returned by `find_pos` (`Before`/`After` do not arise in
this model). -/
inductive TreePos where
  | start
  | middle
  | endP
deriving DecidableEq, Repr

/-- Modelled from the spec: `find_pos_leaf` — walk the children accumulating
atom lengths; an index interior to a child is `Middle` (offset > 0) or
`Start`; an index on the trailing boundary is `End` of the last child.
Returns `(child_index, offset, position)`. -/
def findPosLeaf : List RItem → Nat → Nat × Nat × TreePos
  | [], _ => (0, 0, .start)
  | [i], p =>
    if p < i.len then (0, p, if p = 0 then .start else .middle)
    else (0, i.len, .endP)
  | i :: j :: rest, p =>
    if p < i.len then (0, p, if p = 0 then .start else .middle)
    else
      let r := findPosLeaf (j :: rest) (p - i.len)
      (r.1 + 1, r.2.1, r.2.2)

/-- Positional insertion into a child list. -/
def insertAt (l : List RItem) (n : Nat) (v : RItem) : List RItem :=
  l.take n ++ v :: l.drop n

/-- Replace the child at `n`. -/
def setAt (l : List RItem) (n : Nat) (v : RItem) : List RItem :=
  l.take n ++ v :: l.drop (n + 1)

/-- Mutate the child at `n` in place (no-op when out of range). -/
def updateAt (l : List RItem) (n : Nat) (f : RItem → RItem) : List RItem :=
  match l.get? n with
  | some x => setAt l n (f x)
  | none => l

/-- Drain the children in `[a, b)`. -/
def removeRange (l : List RItem) (a b : Nat) : List RItem :=
  l.take a ++ l.drop b

/-- `LeafNode::_split` (`leaf_impl.rs:34-54`): drain the last `MIN_CHILDREN`
children into a fresh right sibling. -/
def leafSplit (children : List RItem) : List RItem × List RItem :=
  (children.take (children.length - minCh), children.drop (children.length - minCh))

/-- `LeafNode::_insert_with_split` (`leaf_impl.rs:779-810`): insert at `index`
or, when the leaf is full, split first and insert on the matching side. -/
def insertWithSplit (children : List RItem) (index : Nat) (v : RItem) :
    List RItem × Option (List RItem) :=
  if children.length = maxCh then
    let sp := leafSplit children
    if index ≤ sp.1.length then (insertAt sp.1 index v, some sp.2)
    else (sp.1, some (insertAt sp.2 (index - sp.1.length) v))
  else (insertAt children index v, none)

/-- The tail of `LeafNode::_insert_at_pos` after the prev-merge attempt
(`leaf_impl.rs:639-678`): a clean cut inserts directly; a middle position
slices the covered child into `a`/`b`, splitting the leaf first when it holds
`MAX_CHILDREN_NUM - 1` or more children. -/
def insertAtPosRest (children : List RItem) (p' : TreePos) (ci off : Nat) (v : RItem) :
    List RItem × Option (List RItem) :=
  if p' ≠ .middle then insertWithSplit children ci v
  else
    let item := children.getD ci (0, 0)
    let a := item.sliceR 0 off
    let b := item.sliceR off item.len
    let children1 := setAt children ci a
    if maxCh - 1 ≤ children1.length then
      let sp := leafSplit children1
      if ci < sp.1.length then
        let selfC := insertAt (insertAt sp.1 (ci + 1) v) (ci + 2) b
        match selfC.getLast? with
        | some lastc => (selfC.dropLast, some (lastc :: sp.2))
        | none => (selfC, some sp.2)
      else
        (sp.1, some (insertAt (insertAt sp.2 (ci - sp.1.length + 1) v)
          (ci - sp.1.length + 2) b))
    else (insertAt (insertAt children1 (ci + 1) b) (ci + 1) v, none)

/-- The body of `_insert_at_pos` after the position normalisation: the value
merges into its left neighbour when contiguous (`leaf_impl.rs:616-638`),
otherwise the insertion proper runs. -/
def insertAtPosCore (children : List RItem) (p' : TreePos) (ci off : Nat) (v : RItem) :
    List RItem × Option (List RItem) :=
  if (decide (p' = .start) && decide (0 < ci)) &&
      ((children.get? (ci - 1)).elim false (fun prev => prev.mergeableB v)) then
    (updateAt children (ci - 1) (fun prev => prev.mergeR v), none)
  else insertAtPosRest children p' ci off v

/-- `LeafNode::_insert_at_pos` (`leaf_impl.rs:604-679`): an `End` position is
normalised to the `Start` of the next index, then the merge-or-insert body
runs. -/
def insertAtPos (children : List RItem) (pos : TreePos) (childIndex offset : Nat)
    (v : RItem) : List RItem × Option (List RItem) :=
  match pos with
  | .endP => insertAtPosCore children .start (childIndex + 1) 0 v
  | p => insertAtPosCore children p childIndex offset v

/-- `LeafNode::insert` (`leaf_impl.rs:189-220`): an empty leaf just receives
the value; otherwise `find_pos_leaf` locates the spot and `_insert_at_pos`
runs.  The returned option is the split-off right sibling. -/
def leafInsert (children : List RItem) (rawIndex : Nat) (v : RItem) :
    List RItem × Option (List RItem) :=
  if children.isEmpty then ([v], none)
  else
    let r := findPosLeaf children rawIndex
    insertAtPos children r.2.2 r.1 r.2.1 v

/-- `LeafNode::_delete_start` (`leaf_impl.rs:138-146`). -/
def deleteStart (children : List RItem) (a : Nat) : Nat × Option Nat :=
  match findPosLeaf children a with
  | (i, _, .start) => (i, none)
  | (i, off, .middle) => (i + 1, some off)
  | (i, off, .endP) => (i + 1, some off)

/-- `LeafNode::_delete_end` (`leaf_impl.rs:148-156`). -/
def deleteEnd (children : List RItem) (b : Nat) : Nat × Option Nat :=
  match findPosLeaf children b with
  | (i, _, .endP) => (i + 1, none)
  | (i, off, .start) => (i, some off)
  | (i, off, .middle) => (i, some off)

/-- The unhandled path of `LeafNode::delete`: slice the two boundary children
and drain the fully-covered ones. -/
def leafDeleteRest (children : List RItem) (delStart delEnd : Nat)
    (relFrom? relTo? : Option Nat) : List RItem :=
  let c1 := match relFrom? with
    | some rf => updateAt children (delStart - 1) (fun i => i.sliceR 0 rf)
    | none => children
  let c2 := match relTo? with
    | some rt => updateAt c1 delEnd (fun i => i.sliceR rt i.len)
    | none => c1
  if delStart < delEnd then removeRange c2 delStart delEnd else c2

/-- `LeafNode::delete` (`leaf_impl.rs:719-777`).  When the deleted range is
interior to a single child, that child splits in two, which can overflow the
leaf and produce a sibling (hence delete "may cause the children num [to]
increase").  No rebalancing happens on underflow. -/
def leafDelete (children : List RItem) (start? stop? : Option Nat) :
    List RItem × Option (List RItem) :=
  if children.isEmpty then ([], none)
  else
    match start?.elim (0, none) (deleteStart children),
        stop?.elim (children.length, none) (deleteEnd children) with
    | (dS, some rf), (dE, some rt) =>
      if dS - 1 = dE then
        insertWithSplit
          (setAt children dE ((children.getD dE (0, 0)).sliceR 0 rf)) (dE + 1)
          ((children.getD dE (0, 0)).sliceR rt ((children.getD dE (0, 0)).len))
      else (leafDeleteRest children dS dE (some rf) (some rt), none)
    | (dS, rf?), (dE, rt?) => (leafDeleteRest children dS dE rf? rt?, none)

/-- `LeafNode::check` (`leaf_impl.rs:117-136`) on the child count: the source
asserts only the **upper** bound — the `MIN_CHILDREN_NUM` assertion is
commented out. -/
def leafCheckB (children : List RItem) : Bool :=
  decide (children.length ≤ maxCh)

/-- The tree as its ordered list of leaves (see the section comment). -/
structure RTree where
  leaves : List (List RItem)
deriving DecidableEq, Repr

/-- A fresh tree: one empty root leaf. -/
def RTree.initial : RTree := ⟨[[]]⟩

/-- Cached cumulative atom length of a leaf. -/
def leafLen (l : List RItem) : Nat := (l.map RItem.len).sum

/-- Modelled from the spec: tree-level `insert` routing — "locate the leaf
covering `index` via cached subtree lengths", insert there, and splice in the
split-off sibling after it. -/
def insertGo : List (List RItem) → Nat → RItem → List (List RItem)
  | [], _, v => [[v]]
  | [l], p, v =>
    match leafInsert l p v with
    | (l1, none) => [l1]
    | (l1, some sib) => [l1, sib]
  | l :: rest, p, v =>
    if p ≤ leafLen l then
      match leafInsert l p v with
      | (l1, none) => l1 :: rest
      | (l1, some sib) => l1 :: sib :: rest
    else l :: insertGo rest (p - leafLen l) v

/-- Keep the results of a leaf delete, dropping emptied leaves ("nodes become
unreachable only when emptied"). -/
def emitDel : List RItem × Option (List RItem) → List (List RItem)
  | (l, sib?) =>
    (if l.isEmpty then [] else [l]) ++
      (match sib? with
        | some s => if s.isEmpty then [] else [s]
        | none => [])

/-- Modelled from the spec: tree-level `delete_range(from, to)` routing —
each overlapped leaf deletes its local sub-range (a side fully covered passes
`None`), emptied leaves disappear. -/
def deleteGo : List (List RItem) → Nat → Nat → List (List RItem)
  | [], _, _ => []
  | l :: rest, a, b =>
    let n := leafLen l
    if b ≤ a then l :: rest
    else if n ≤ a then l :: deleteGo rest (a - n) (b - n)
    else if b ≤ n then
      emitDel (leafDelete l (if a = 0 then none else some a)
        (if b = n then none else some b)) ++ rest
    else
      emitDel (leafDelete l (if a = 0 then none else some a) none)
        ++ deleteGo rest 0 (b - n)

/-- `RleTree::insert`. -/
def RTree.insert (t : RTree) (p : Nat) (v : RItem) : RTree :=
  ⟨insertGo t.leaves p v⟩

/-- `RleTree::delete_range`. -/
def RTree.delete (t : RTree) (a b : Nat) : RTree :=
  ⟨deleteGo t.leaves a b⟩

/-- The trees reachable from a fresh tree by any sequence of inserts and
deletes. -/
inductive Reachable : RTree → Prop where
  | init : Reachable RTree.initial
  | ins (t : RTree) (p : Nat) (v : RItem) : Reachable t → Reachable (t.insert p v)
  | del (t : RTree) (a b : Nat) : Reachable t → Reachable (t.delete a b)

/-! ### Child-count bounds for the leaf operations -/

/-- The leaves a leaf operation yields: the node itself and the split-off
sibling, if any. -/
def sidesOf (pr : List RItem × Option (List RItem)) : List (List RItem) :=
  pr.1 :: pr.2.toList

theorem mem_sides_pair (x : List RItem) (s? : Option (List RItem)) (l : List RItem)
    (hl : l ∈ sidesOf (x, s?)) : l = x ∨ s? = some l := by
  cases s? with
  | none =>
    simp [sidesOf] at hl
    exact Or.inl hl
  | some s =>
    simp [sidesOf] at hl
    rcases hl with hl | hl
    · exact Or.inl hl
    · exact Or.inr (by rw [hl])

theorem length_insertAt (l : List RItem) (n : Nat) (v : RItem) :
    (insertAt l n v).length = min n l.length + 1 + (l.length - n) := by
  simp only [insertAt, List.length_append, List.length_cons, List.length_take,
    List.length_drop]
  omega

theorem setAt_length_le (l : List RItem) (n : Nat) (v : RItem) :
    (setAt l n v).length ≤ l.length + 1 := by
  simp only [setAt, List.length_append, List.length_cons, List.length_take,
    List.length_drop]
  omega

theorem setAt_length_of_lt (l : List RItem) (n : Nat) (v : RItem) (h : n < l.length) :
    (setAt l n v).length = l.length := by
  simp only [setAt, List.length_append, List.length_cons, List.length_take,
    List.length_drop]
  omega

theorem updateAt_length (l : List RItem) (n : Nat) (f : RItem → RItem) :
    (updateAt l n f).length = l.length := by
  unfold updateAt
  cases h : l.get? n with
  | none => rfl
  | some x =>
    by_cases hn : n < l.length
    · exact setAt_length_of_lt l n (f x) hn
    · rw [List.get?_eq_none.mpr (Nat.le_of_not_lt hn)] at h
      exact absurd h (by simp)

theorem removeRange_length_le (l : List RItem) (a b : Nat) (hab : a ≤ b) :
    (removeRange l a b).length ≤ l.length := by
  simp only [removeRange, List.length_append, List.length_take, List.length_drop]
  omega

theorem insertWithSplit_bound (children : List RItem) (index : Nat) (v : RItem)
    (h : children.length ≤ maxCh) (l : List RItem)
    (hl : l ∈ sidesOf (insertWithSplit children index v)) : l.length ≤ maxCh := by
  have hM : maxCh = 8 := rfl
  have hm : minCh = 4 := rfl
  simp only [insertWithSplit, leafSplit] at hl
  split at hl
  · rename_i h8
    split at hl
    · rcases mem_sides_pair _ _ _ hl with h1 | h1
      · subst h1
        rw [length_insertAt]
        simp only [List.length_take]
        omega
      · have h2 := Option.some_inj.mp h1
        subst h2
        simp only [List.length_drop]
        omega
    · rcases mem_sides_pair _ _ _ hl with h1 | h1
      · subst h1
        simp only [List.length_take]
        omega
      · have h2 := Option.some_inj.mp h1
        subst h2
        rw [length_insertAt]
        simp only [List.length_drop]
        omega
  · rename_i h8
    rcases mem_sides_pair _ _ _ hl with h1 | h1
    · subst h1
      rw [length_insertAt]
      omega
    · exact absurd h1 (by simp)

theorem insertAtPosRest_bound (children : List RItem) (p' : TreePos) (ci off : Nat)
    (v : RItem) (h : children.length ≤ maxCh) (l : List RItem)
    (hl : l ∈ sidesOf (insertAtPosRest children p' ci off v)) : l.length ≤ maxCh := by
  have hM : maxCh = 8 := rfl
  have hm : minCh = 4 := rfl
  unfold insertAtPosRest at hl
  split at hl
  · exact insertWithSplit_bound children ci v h l hl
  · have hsetAt := setAt_length_le children ci ((children.getD ci (0, 0)).sliceR 0 off)
    simp only [leafSplit] at hl
    split at hl
    · rename_i h7
      split at hl
      · rename_i hci
        split at hl
        · rename_i lastc heq
          rcases mem_sides_pair _ _ _ hl with h1 | h1
          · subst h1
            rw [List.length_dropLast, length_insertAt, length_insertAt]
            simp only [List.length_take]
            have := setAt_length_le children ci ((children.getD ci (0, 0)).sliceR 0 off)
            omega
          · have h2 := Option.some_inj.mp h1
            subst h2
            simp only [List.length_cons, List.length_drop]
            have := setAt_length_le children ci ((children.getD ci (0, 0)).sliceR 0 off)
            omega
        · rename_i heq
          rcases mem_sides_pair _ _ _ hl with h1 | h1
          · subst h1
            rw [length_insertAt, length_insertAt]
            simp only [List.length_take]
            have := setAt_length_le children ci ((children.getD ci (0, 0)).sliceR 0 off)
            omega
          · have h2 := Option.some_inj.mp h1
            subst h2
            simp only [List.length_drop]
            omega
      · rcases mem_sides_pair _ _ _ hl with h1 | h1
        · subst h1
          simp only [List.length_take]
          omega
        · have h2 := Option.some_inj.mp h1
          subst h2
          rw [length_insertAt, length_insertAt]
          simp only [List.length_drop]
          have := setAt_length_le children ci ((children.getD ci (0, 0)).sliceR 0 off)
          omega
    · rename_i h7
      rcases mem_sides_pair _ _ _ hl with h1 | h1
      · subst h1
        rw [length_insertAt, length_insertAt]
        have := setAt_length_le children ci ((children.getD ci (0, 0)).sliceR 0 off)
        omega
      · exact absurd h1 (by simp)

theorem insertAtPosCore_bound (children : List RItem) (p' : TreePos) (ci off : Nat)
    (v : RItem) (h : children.length ≤ maxCh) (l : List RItem)
    (hl : l ∈ sidesOf (insertAtPosCore children p' ci off v)) :
    l.length ≤ maxCh := by
  unfold insertAtPosCore at hl
  split at hl
  · rcases mem_sides_pair _ _ _ hl with h1 | h1
    · subst h1
      rw [updateAt_length]
      exact h
    · exact absurd h1 (by simp)
  · exact insertAtPosRest_bound children _ _ _ v h l hl

theorem insertAtPos_bound (children : List RItem) (pos : TreePos) (childIndex offset : Nat)
    (v : RItem) (h : children.length ≤ maxCh) (l : List RItem)
    (hl : l ∈ sidesOf (insertAtPos children pos childIndex offset v)) :
    l.length ≤ maxCh := by
  cases pos <;> exact insertAtPosCore_bound children _ _ _ v h l hl

theorem leafInsert_bound (children : List RItem) (rawIndex : Nat) (v : RItem)
    (h : children.length ≤ maxCh) (l : List RItem)
    (hl : l ∈ sidesOf (leafInsert children rawIndex v)) : l.length ≤ maxCh := by
  unfold leafInsert at hl
  split at hl
  · rcases mem_sides_pair _ _ _ hl with h1 | h1
    · subst h1
      simp [maxCh]
    · exact absurd h1 (by simp)
  · exact insertAtPos_bound children _ _ _ v h l hl

theorem findPosLeaf_fst_lt : ∀ (children : List RItem) (p : Nat), children ≠ [] →
    (findPosLeaf children p).1 < children.length
  | [], _, h => absurd rfl h
  | [i], p, _ => by
    simp only [findPosLeaf]
    split <;> simp
  | i :: j :: rest, p, _ => by
    simp only [findPosLeaf]
    split
    · simp
    · have := findPosLeaf_fst_lt (j :: rest) (p - i.len) (by simp)
      simp only [List.length_cons] at this ⊢
      omega

theorem deleteEnd_fst_lt (children : List RItem) (b : Nat) (h : children ≠ [])
    (hsome : (deleteEnd children b).2.isSome = true) :
    (deleteEnd children b).1 < children.length := by
  have hfp := findPosLeaf_fst_lt children b h
  rcases hr : findPosLeaf children b with ⟨i, off, pos⟩
  rw [hr] at hfp
  simp only at hfp
  cases pos <;> simp_all [deleteEnd]

theorem leafDeleteRest_length_le (children : List RItem) (dS dE : Nat)
    (rf? rt? : Option Nat) :
    (leafDeleteRest children dS dE rf? rt?).length ≤ children.length := by
  unfold leafDeleteRest
  cases rf? <;> cases rt? <;>
    (simp only []
     split
     · rename_i hlt
       exact le_trans (removeRange_length_le _ _ _ (Nat.le_of_lt hlt))
         (by simp [updateAt_length])
     · simp [updateAt_length])

theorem leafDelete_bound (children : List RItem) (start? stop? : Option Nat)
    (h : children.length ≤ maxCh) (l : List RItem)
    (hl : l ∈ sidesOf (leafDelete children start? stop?)) : l.length ≤ maxCh := by
  unfold leafDelete at hl
  split at hl
  · rcases mem_sides_pair _ _ _ hl with h1 | h1
    · subst h1
      simp [maxCh]
    · exact absurd h1 (by simp)
  · rename_i hne
    have hne' : children ≠ [] := by simpa using hne
    split at hl
    · rename_i dS rf dE rt heq1 heq2
      split at hl
      · rename_i hsame
        have hlt : dE < children.length := by
          cases stop? with
          | none =>
            exact absurd heq2 (by simp)
          | some b1 =>
            have h1 : (deleteEnd children b1).1 = dE := by
              simp only [Option.elim] at heq2
              rw [heq2]
            have h2 : (deleteEnd children b1).2.isSome = true := by
              simp only [Option.elim] at heq2
              rw [heq2]
              rfl
            rw [← h1]
            exact deleteEnd_fst_lt children b1 hne' h2
        apply insertWithSplit_bound _ _ _ _ l hl
        rw [setAt_length_of_lt _ _ _ hlt]
        exact h
      · rcases mem_sides_pair _ _ _ hl with h1 | h1
        · subst h1
          exact le_trans (leafDeleteRest_length_le _ _ _ _ _) h
        · exact absurd h1 (by simp)
    · rcases mem_sides_pair _ _ _ hl with h1 | h1
      · subst h1
        exact le_trans (leafDeleteRest_length_le _ _ _ _ _) h
      · exact absurd h1 (by simp)

theorem insertGo_bound : ∀ (leaves : List (List RItem)) (p : Nat) (v : RItem),
    (∀ l ∈ leaves, l.length ≤ maxCh) → ∀ l ∈ insertGo leaves p v, l.length ≤ maxCh
  | [], p, v, _ => by
    intro l hl
    simp only [insertGo, List.mem_singleton] at hl
    subst hl
    simp [maxCh]
  | [l0], p, v, h => by
    intro l hl
    have h0 : l0.length ≤ maxCh := h l0 (List.mem_singleton.mpr rfl)
    simp only [insertGo] at hl
    cases hres : leafInsert l0 p v with
    | mk l1 sib? =>
      rw [hres] at hl
      cases sib? with
      | none =>
        simp only [List.mem_singleton] at hl
        subst hl
        exact leafInsert_bound l0 p v h0 l (by rw [hres]; simp [sidesOf])
      | some sib =>
        rcases List.mem_pair.mp hl with h1 | h1 <;> subst h1
        · exact leafInsert_bound l0 p v h0 _ (by rw [hres]; simp [sidesOf])
        · exact leafInsert_bound l0 p v h0 _ (by rw [hres]; simp [sidesOf])
  | l0 :: l1 :: rest, p, v, h => by
    intro l hl
    have h0 : l0.length ≤ maxCh := h l0 (List.mem_cons_self _ _)
    simp only [insertGo] at hl
    split at hl
    · cases hres : leafInsert l0 p v with
      | mk lx sib? =>
        rw [hres] at hl
        cases sib? with
        | none =>
          rcases List.mem_cons.mp hl with h1 | h1
          · subst h1
            exact leafInsert_bound l0 p v h0 _ (by rw [hres]; simp [sidesOf])
          · exact h l (List.mem_cons_of_mem _ h1)
        | some sib =>
          rcases List.mem_cons.mp hl with h1 | h1
          · subst h1
            exact leafInsert_bound l0 p v h0 _ (by rw [hres]; simp [sidesOf])
          · rcases List.mem_cons.mp h1 with h2 | h2
            · subst h2
              exact leafInsert_bound l0 p v h0 _ (by rw [hres]; simp [sidesOf])
            · exact h l (List.mem_cons_of_mem _ h2)
    · rcases List.mem_cons.mp hl with h1 | h1
      · subst h1
        exact h0
      · exact insertGo_bound (l1 :: rest) (p - leafLen l0) v
          (fun m hm => h m (List.mem_cons_of_mem _ hm)) l h1

theorem mem_emitDel (pr : List RItem × Option (List RItem)) (l : List RItem)
    (hl : l ∈ emitDel pr) : l ∈ sidesOf pr := by
  rcases pr with ⟨x, s?⟩
  cases s? with
  | none =>
    simp only [emitDel] at hl
    split at hl <;> simp_all [sidesOf]
  | some s =>
    simp only [emitDel] at hl
    split at hl <;> split at hl <;> simp_all [sidesOf]

theorem deleteGo_bound : ∀ (leaves : List (List RItem)) (a b : Nat),
    (∀ l ∈ leaves, l.length ≤ maxCh) → ∀ l ∈ deleteGo leaves a b, l.length ≤ maxCh
  | [], a, b, _ => by
    intro l hl
    simp [deleteGo] at hl
  | l0 :: rest, a, b, h => by
    intro l hl
    have h0 : l0.length ≤ maxCh := h l0 (List.mem_cons_self _ _)
    simp only [deleteGo] at hl
    split at hl
    · exact h l hl
    · split at hl
      · rcases List.mem_cons.mp hl with h1 | h1
        · subst h1
          exact h0
        · exact deleteGo_bound rest (a - leafLen l0) (b - leafLen l0)
            (fun m hm => h m (List.mem_cons_of_mem _ hm)) l h1
      · split at hl
        · rcases List.mem_append.mp hl with h1 | h1
          · exact leafDelete_bound l0 _ _ h0 l (mem_emitDel _ _ h1)
          · exact h l (List.mem_cons_of_mem _ h1)
        · rcases List.mem_append.mp hl with h1 | h1
          · exact leafDelete_bound l0 _ _ h0 l (mem_emitDel _ _ h1)
          · exact deleteGo_bound rest 0 (b - leafLen l0)
              (fun m hm => h m (List.mem_cons_of_mem _ hm)) l h1

/-- C9 (amended): every leaf of every tree reachable by inserts and deletes
passes the source's own `LeafNode::check` on the child count, i.e. holds at
most `MAX_CHILDREN_NUM` items.  The `MIN_CHILDREN` lower bound of the claim
is **not** maintained: `delete` tolerates underflow, and the checker's MIN
assertion is commented out in the source. -/
theorem reachable_leaf_check (t : RTree) (h : Reachable t) :
    ∀ l ∈ t.leaves, leafCheckB l = true := by
  have hb : ∀ l ∈ t.leaves, l.length ≤ maxCh := by
    induction h with
    | init =>
      intro l hl
      simp only [RTree.initial, List.mem_singleton] at hl
      subst hl
      simp [maxCh]
    | ins t p v ht ih => exact insertGo_bound t.leaves p v ih
    | del t a b ht ih => exact deleteGo_bound t.leaves a b ih
  intro l hl
  exact decide_eq_true (hb l hl)

/-- The tree reached by nine pairwise non-mergeable unit inserts (forcing a
leaf split into a 4-leaf and a 5-leaf) followed by deleting two items from
the second leaf. -/
def treeBad : RTree :=
  ((((((((((RTree.initial.insert 0 (0, 1)).insert 1 (10, 11)).insert 2
    (20, 21)).insert 3 (30, 31)).insert 4 (40, 41)).insert 5 (50, 51)).insert 6
    (60, 61)).insert 7 (70, 71)).insert 8 (80, 81)).delete 6 8)

theorem treeBad_reachable : Reachable treeBad :=
  .del _ 6 8 (.ins _ 8 _ (.ins _ 7 _ (.ins _ 6 _ (.ins _ 5 _ (.ins _ 4 _
    (.ins _ 3 _ (.ins _ 2 _ (.ins _ 1 _ (.ins _ 0 _ .init)))))))))

theorem reachable_leaf_check_witness :
    leafCheckB [(0, 1), (10, 11), (20, 21), (30, 31)] = true ∧
    leafCheckB [(40, 41), (50, 51), (80, 81)] = true :=
  ⟨reachable_leaf_check treeBad treeBad_reachable _ (by decide),
   reachable_leaf_check treeBad treeBad_reachable _ (by decide)⟩

/-- C9 (counterexample): `treeBad` is reachable by a sequence of inserts and
deletes, has two leaves (so neither leaf is a root leaf), yet its second leaf
holds only 3 items — fewer than `MIN_CHILDREN` — refuting the claimed lower
bound. -/
theorem leaf_min_bound_counterexample :
    Reachable treeBad ∧
    2 ≤ treeBad.leaves.length ∧
    (∃ l ∈ treeBad.leaves, l.length < minCh) ∧
    ¬ (∀ l ∈ treeBad.leaves, treeBad.leaves.length = 1 ∨ minCh ≤ l.length) :=
  ⟨treeBad_reachable, by decide, by decide, by decide⟩

theorem to_export_spec_witness :
    (TextContainer.to_export ⟨7, [.span 0 4], ⟨['a', 'b', 'c', 'd'],
          [true, true, false, false]⟩, Tracker.new [] 0⟩
        (.insert (.span 0 4) 10) true).fst.length
      = ((exportUpdated ⟨7, [.span 0 4], ⟨['a', 'b', 'c', 'd'],
          [true, true, false, false]⟩, Tracker.new [] 0⟩ true).raw_str.get_aliveness
          (0, 4)).length ∧
    (TextContainer.to_export ⟨7, [.span 0 4], ⟨['a', 'b', 'c', 'd'],
          [true, true, false, false]⟩, Tracker.new [] 0⟩
        (.insert (.span 0 4) 10) true).fst.get? 1
      = some (RemoteContent.insert (.unknownW 2) 12) ∧
    (TextContainer.to_export ⟨7, [.span 0 4], ⟨['a', 'b', 'c', 'd'],
          [true, true, false, false]⟩, Tracker.new [] 0⟩
        (.insert (.span 0 4) 10) false).fst
      = [.insert (.rawStr ['a', 'b', 'c', 'd']) 10] := by
  have h := to_export_spec ⟨7, [.span 0 4], ⟨['a', 'b', 'c', 'd'],
      [true, true, false, false]⟩, Tracker.new [] 0⟩ 0 4 10 1 (by decide) (by decide)
  refine ⟨h.1, ?_, ?_⟩
  · rw [h.2.1]
    decide
  · have h4 := h.2.2.2
    rw [h4]
    decide

end Loro
